import Mathlib

/-!
Verification development for the template composition and caching engine in
middleware/render/standard/standard.go (package standard).

The engine is shallowly embedded over lists of characters.  Template content is
a value of type List Char; the regex-driven tag scanner of the source is
embedded as a deterministic character scanner that recognises the same two-form
directive grammar (the source regexes are anchored literal keywords with
whitespace classes, a quoted argument, an optional pass object and a closing
delimiter, so matching is deterministic).  The configuration is fixed to the
default values installed by the constructor New: delimiters of two opening and
two closing curly braces, tag keywords Include, Function, Extend, Block, Super,
Strip, and file extension .html.

Stateful code (cache maps, the sub-template pool, the clip map) is embedded by
explicit state passing; invocations of external collaborators (content-source
reads, Function callbacks) are additionally recorded in observation logs so
that claims about those effects can be stated.
-/

namespace StdRender

/-- Characters recognised by the Go regexp class backslash-s:
tab, newline, form feed, carriage return and space. -/
def wsChar (c : Char) : Bool :=
  c = ' ' || c = '\t' || c = '\n' || c = '\x0c' || c = '\r'

/-- Left delimiter, the default DelimLeft of the engine (two opening braces). -/
def delimL : List Char := ['\x7b', '\x7b']

/-- Right delimiter, the default DelimRight of the engine (two closing braces). -/
def delimR : List Char := ['\x7d', '\x7d']

/-- Tag of the source: wraps content in the configured delimiters. -/
def Tag (content : List Char) : List Char := delimL ++ content ++ delimR

/-- Super marker text, Tag(SuperTag) for the default SuperTag. -/
def superMarker : List Char := Tag "Super".data

/-- File extension appended to logical names, the default Ext of the engine. -/
def extSuffix : List Char := ".html".data

/-- TmplPath of the source without a path fixer: filepath.Join of the
template directory and the relative path (canonical inputs, no cleaning). -/
def TmplPath (dir p : List Char) : List Char := dir ++ ['/'] ++ p

/-- CleanTemplateName of the driver package.  Modelled from the spec: the
driver package is not part of the sources under study; the spec never
mentions a name normalisation, so it is modelled as the identity on the
canonical template names used here. -/
def CleanTemplateName (s : List Char) : List Char := s

/-- If the input starts with the literal pattern, return the remainder. -/
def stripLit : List Char → List Char → Option (List Char)
  | [], s => some s
  | _ :: _, [] => none
  | p :: ps, c :: cs => if p = c then stripLit ps cs else none

/-- Earliest occurrence split: s = before ++ pat ++ after for the leftmost
occurrence of pat in s. -/
def splitAtLit (pat : List Char) : List Char → Option (List Char × List Char)
  | [] => match stripLit pat [] with
    | some r => some ([], r)
    | none => none
  | c :: cs => match stripLit pat (c :: cs) with
    | some r => some ([], r)
    | none => match splitAtLit pat cs with
      | some (b, a) => some (c :: b, a)
      | none => none

/-- strings.Contains of the Go standard library. -/
def containsLit (pat s : List Char) : Bool := (splitAtLit pat s).isSome

/-- strings.Replace with count 1: replace the leftmost occurrence only. -/
def replaceFirst (old new s : List Char) : List Char :=
  match splitAtLit old s with
  | some (b, a) => b ++ new ++ a
  | none => s

/-- Fuelled worker for replaceAll; fuel bounds the scan position. -/
def replaceAllF (old new : List Char) : Nat → List Char → List Char
  | 0, s => s
  | _ + 1, [] => []
  | n + 1, c :: cs =>
    match stripLit old (c :: cs) with
    | some rest => new ++ replaceAllF old new n rest
    | none => c :: replaceAllF old new n cs

/-- strings.Replace with count -1: replace every non-overlapping occurrence,
scanning from the left (the replacement text is not rescanned). -/
def replaceAll (old new s : List Char) : List Char :=
  if old.isEmpty then s else replaceAllF old new s.length s

/-- Consume one or more whitespace characters (maximal munch; in every use the
following token is not whitespace, so this is exactly the regex class). -/
def takeWsPlus : List Char → Option (List Char)
  | [] => none
  | c :: cs => if wsChar c then some (cs.dropWhile wsChar) else none

/-- Consume a double-quoted nonempty argument: the regex piece
quote, one or more non-quote characters, quote. -/
def takeQuoted : List Char → Option (List Char × List Char)
  | '"' :: cs =>
    match cs.span (fun c => !(c = '"')) with
    | (nm, '"' :: rest) => if nm.isEmpty then none else some (nm, rest)
    | _ => none
  | _ => none

/-- Resolution of the optional pass-object group of the Include/Function/Extend
regexes on the span s0 of non-closing-brace characters following the quoted
argument.  Greedy matching of (ws+ group?)? ws* slash? gives: an all-whitespace
span or a bare slash yield an absent group; a span starting with whitespace
yields the span with its leading whitespace removed; anything else fails the
whole match. -/
def callArg (s0 : List Char) : Option (List Char) :=
  if s0.isEmpty then some []
  else
    match s0 with
    | c :: _ =>
      if wsChar c then
        let r := s0.dropWhile wsChar
        if r.isEmpty then some [] else some r
      else if s0 = ['/'] then some []
      else none
    | [] => none

/-- Attempt to match a self-contained call directive (Include or Function
form) at the head of s: delimiter, keyword, whitespace, quoted argument,
optional pass object, optional slash, closing delimiter.  Returns the
argument, the pass object and the remainder after the match. -/
def matchCallAt (kw : List Char) (s : List Char) : Option (List Char × List Char × List Char) :=
  match stripLit (delimL ++ kw) s with
  | none => none
  | some s1 =>
    match takeWsPlus s1 with
    | none => none
    | some s2 =>
      match takeQuoted s2 with
      | none => none
      | some (nm, s3) =>
        match s3.span (fun c => !(c = '\x7d')) with
        | (s0, s4) =>
          match stripLit delimR s4 with
          | none => none
          | some s5 =>
            match callArg s0 with
            | none => none
            | some arg => some (nm, arg, s5)

/-- Fuelled scan for every call-directive match of a keyword, leftmost first,
continuing after each match; each element is (matched text, argument,
pass object). -/
def findCallsF (kw : List Char) : Nat → List Char → List (List Char × List Char × List Char)
  | 0, _ => []
  | _ + 1, [] => []
  | n + 1, c :: cs =>
    match matchCallAt kw (c :: cs) with
    | some (nm, arg, rest) =>
      ((c :: cs).take ((c :: cs).length - rest.length), nm, arg) :: findCallsF kw n rest
    | none => findCallsF kw n cs

/-- FindAllStringSubmatch for the Include/Function tag regexes. -/
def findCalls (kw : List Char) (s : List Char) : List (List Char × List Char × List Char) :=
  findCallsF kw s.length s

/-- Attempt to match a paired Block definition at the head of s:
open tag with quoted name, then the shortest body up to the closing Block tag
(the non-greedy body group of the source regex).  Returns name, body and
remainder. -/
def matchBlockAt (s : List Char) : Option (List Char × List Char × List Char) :=
  match stripLit (delimL ++ "Block".data) s with
  | none => none
  | some s1 =>
    match takeWsPlus s1 with
    | none => none
    | some s2 =>
      match takeQuoted s2 with
      | none => none
      | some (nm, s3) =>
        match stripLit delimR (s3.dropWhile wsChar) with
        | none => none
        | some s4 =>
          match splitAtLit (delimL ++ ['/'] ++ "Block".data ++ delimR) s4 with
          | none => none
          | some (body, rest) => some (nm, body, rest)

/-- Fuelled scan for every paired Block match; each element is
(matched text, name, body). -/
def findBlocksF : Nat → List Char → List (List Char × List Char × List Char)
  | 0, _ => []
  | _ + 1, [] => []
  | n + 1, c :: cs =>
    match matchBlockAt (c :: cs) with
    | some (nm, body, rest) =>
      ((c :: cs).take ((c :: cs).length - rest.length), nm, body) :: findBlocksF n rest
    | none => findBlocksF n cs

/-- FindAllStringSubmatch for the paired Block tag regex. -/
def findBlocks (s : List Char) : List (List Char × List Char × List Char) :=
  findBlocksF s.length s

/-- Attempt to match a self-closing Block placeholder at the head of s. -/
def matchSelfAt (s : List Char) : Option (List Char × List Char) :=
  match stripLit (delimL ++ "Block".data) s with
  | none => none
  | some s1 =>
    match takeWsPlus s1 with
    | none => none
    | some s2 =>
      match takeQuoted s2 with
      | none => none
      | some (nm, s3) =>
        match stripLit (['/'] ++ delimR) (s3.dropWhile wsChar) with
        | none => none
        | some s4 => some (nm, s4)

/-- Fuelled worker for the ReplaceAllStringFunc over self-closing Block
placeholders: each match is replaced by f applied to the captured name (the
source closure re-extracts exactly the first quoted span of the match), and
scanning continues after the match without rescanning the replacement. -/
def replaceSelfF (f : List Char → List Char) : Nat → List Char → List Char
  | 0, s => s
  | _ + 1, [] => []
  | n + 1, c :: cs =>
    match matchSelfAt (c :: cs) with
    | some (nm, rest) => f nm ++ replaceSelfF f n rest
    | none => c :: replaceSelfF f n cs

/-- ReplaceAllStringFunc of the self-closing Block regex. -/
def replaceSelf (f : List Char → List Char) (s : List Char) : List Char :=
  replaceSelfF f s.length s

/-- Fuelled scan listing the names of self-closing Block placeholders. -/
def findSelfF : Nat → List Char → List (List Char)
  | 0, _ => []
  | _ + 1, [] => []
  | n + 1, c :: cs =>
    match matchSelfAt (c :: cs) with
    | some (nm, rest) => nm :: findSelfF n rest
    | none => findSelfF n cs

/-- Names of all self-closing Block placeholders in a document. -/
def findSelf (s : List Char) : List (List Char) :=
  findSelfF s.length s

/-- Anchored Extend match: the source regex only matches at the start of the
document, after optional leading whitespace, and FindAllStringSubmatch with
count 1 keeps at most the first match.  Returns (name, pass object). -/
def matchExtendTag (s : List Char) : Option (List Char × List Char) :=
  match matchCallAt "Extend".data (s.dropWhile wsChar) with
  | some (nm, arg, _) => some (nm, arg)
  | none => none

end StdRender

namespace StdRender

/-- Association map from names/paths to values; embeds the Go string-keyed
maps with deterministic (insertion-ordered) iteration. -/
abbrev AMap (α : Type) := List (List Char × α)

/-- Lookup in an association map. -/
def lookupA {α : Type} (k : List Char) : AMap α → Option α
  | [] => none
  | (k', v) :: rest => if k' = k then some v else lookupA k rest

/-- Map update: replace the value of an existing key or append a new binding. -/
def setK {α : Type} (m : AMap α) (k : List Char) (v : α) : AMap α :=
  match m with
  | [] => [(k, v)]
  | (k', v') :: rest => if k' = k then (k, v) :: rest else (k', v') :: setK rest k v

/-- Keys of an association map. -/
def keysOf {α : Type} : AMap α → List (List Char)
  | [] => []
  | (k, _) :: rest => k :: keysOf rest

/-- Sub-template pool: resolved path to expanded body (SubTemplatePool). -/
abbrev Pool := AMap (List Char)

/-- Content source: logical path to raw bytes (the watched directory or the
in-memory manager, specified at its interface boundary). -/
abbrev FS := AMap (List Char)

/-- Error text of the operating system for a missing file; it names the path. -/
def openErr (p : List Char) : List Char :=
  "open ".data ++ p ++ ": no such file or directory".data

/-- Read of the content source.  Modelled from the spec: the content-source
implementations (the template manager and ioutil.ReadFile) are outside the
sources under study; a missing file yields the operating system error text,
which names the file path. -/
def readFile (fs : FS) (p : List Char) : Except (List Char) (List Char) :=
  match lookupA p fs with
  | some b => .ok b
  | none => .error (openErr p)

/-- Compaction applied to the body of a Strip region.  Modelled from the spec:
the whitespace compaction helpers live in the driver package, which is outside
the sources under study; the compaction itself is modelled as the identity
(no claim exercises Strip regions). -/
def stripInner (b : List Char) : List Char := b

/-- Attempt to match a Strip wrapper at the head of s. -/
def matchStripAt (s : List Char) : Option (List Char × List Char) :=
  match stripLit (Tag "Strip".data) s with
  | none => none
  | some s1 =>
    match splitAtLit (delimL ++ ['/'] ++ "Strip".data ++ delimR) s1 with
    | none => none
    | some (body, rest) => some (body, rest)

/-- Fuelled worker replacing each Strip region with its compacted body. -/
def stripTagsF : Nat → List Char → List Char
  | 0, s => s
  | _ + 1, [] => []
  | n + 1, c :: cs =>
    match matchStripAt (c :: cs) with
    | some (body, rest) => stripInner body ++ stripTagsF n rest
    | none => c :: stripTagsF n cs

/-- Non-debug strip of the engine: every Strip region is replaced by its
compacted body. -/
def stripTags (s : List Char) : List Char := stripTagsF s.length s

/-- RawContent of the engine: read through the content source, then apply the
preprocessors (none are configured by the constructor) and strip. -/
def RawContent (fs : FS) (p : List Char) : Except (List Char) (List Char) :=
  match readFile fs p with
  | .error e => .error e
  | .ok b => .ok (stripTags b)

/-- Number of content-source paths not yet registered in a pool; the
termination measure of include expansion. -/
def missingCount (fsKeys poolKeys : List (List Char)) : Nat :=
  match fsKeys with
  | [] => 0
  | k :: rest => (if k ∈ poolKeys then 0 else 1) + missingCount rest poolKeys

/-- Pool keys only grow. -/
def PoolLe (p q : Pool) : Prop := ∀ k, k ∈ keysOf p → k ∈ keysOf q

theorem mem_keysOf_setK {α : Type} (m : AMap α) (k : List Char) (v : α) (a : List Char) :
    a ∈ keysOf (setK m k v) ↔ a = k ∨ a ∈ keysOf m := by
  induction m with
  | nil => simp [setK, keysOf]
  | cons hd tl ih =>
    cases hd with
    | mk k' v' =>
      by_cases h : k' = k
      · subst h
        simp [setK, keysOf]
      · simp only [setK, if_neg h, keysOf, List.mem_cons]
        constructor
        · rintro (h1 | h2)
          · exact Or.inr (Or.inl h1)
          · rcases (ih).1 h2 with h3 | h4
            · exact Or.inl h3
            · exact Or.inr (Or.inr h4)
        · rintro (h1 | h2 | h3)
          · exact Or.inr ((ih).2 (Or.inl h1))
          · exact Or.inl h2
          · exact Or.inr ((ih).2 (Or.inr h3))

theorem lookupA_eq_none_iff {α : Type} (m : AMap α) (k : List Char) :
    lookupA k m = none ↔ k ∉ keysOf m := by
  induction m with
  | nil => simp [lookupA, keysOf]
  | cons hd tl ih =>
    cases hd with
    | mk k' v' =>
      by_cases h : k' = k
      · subst h
        simp [lookupA, keysOf]
      · simp [lookupA, keysOf, h, ih, Ne.symm h]

theorem PoolLe_refl (p : Pool) : PoolLe p p := fun _ h => h

theorem PoolLe_trans {p q r : Pool} (h1 : PoolLe p q) (h2 : PoolLe q r) : PoolLe p r :=
  fun k h => h2 k (h1 k h)

theorem PoolLe_setK (p : Pool) (k : List Char) (v : List Char) : PoolLe p (setK p k v) :=
  fun a h => (mem_keysOf_setK p k v a).2 (Or.inr h)

theorem missingCount_mono (l : List (List Char)) {p q : List (List Char)}
    (h : ∀ a, a ∈ p → a ∈ q) : missingCount l q ≤ missingCount l p := by
  induction l with
  | nil => simp [missingCount]
  | cons hd tl ih =>
    by_cases hp : hd ∈ p
    · simp [missingCount, hp, h hd hp]
      omega
    · by_cases hq : hd ∈ q
      · simp [missingCount, hp, hq]
        omega
      · simp [missingCount, hp, hq]
        omega

theorem missingCount_lt (l : List (List Char)) {p q : List (List Char)} (k : List Char)
    (hkl : k ∈ l) (hkp : k ∉ p) (hkq : k ∈ q) (h : ∀ a, a ∈ p → a ∈ q) :
    missingCount l q < missingCount l p := by
  induction l with
  | nil => cases hkl
  | cons hd tl ih =>
    rcases List.mem_cons.1 hkl with heq | htl
    · subst heq
      simp only [missingCount, if_neg hkp, if_pos hkq]
      have := missingCount_mono tl h
      omega
    · have h1 : (if hd ∈ q then 0 else 1) ≤ (if hd ∈ p then 0 else 1) := by
        by_cases hp : hd ∈ p
        · simp [hp, h hd hp]
        · by_cases hq : hd ∈ q <;> simp [hp, hq]
      have h2 := ih htl
      simp only [missingCount]
      omega

theorem readFile_ok_mem {fs : FS} {p b : List Char} (h : readFile fs p = .ok b) :
    p ∈ keysOf fs := by
  by_cases hm : p ∈ keysOf fs
  · exact hm
  · exfalso
    have := (lookupA_eq_none_iff fs p).2 hm
    rw [readFile, this] at h
    cases h

theorem RawContent_ok_mem {fs : FS} {p b : List Char} (h : RawContent fs p = .ok b) :
    p ∈ keysOf fs := by
  rw [RawContent] at h
  cases hr : readFile fs p with
  | error e => rw [hr] at h; cases h
  | ok c => exact readFile_ok_mem hr

/-- Result of include expansion: the expanded body, the sub-template pool and
the log of content-source reads performed. -/
structure CSTRes where
  text : List Char
  pool : Pool
  reads : List (List Char)

/-- Reference construct substituted for an Include occurrence: a template
invocation of the resolved path forwarding the pass object (default dot). -/
def subTplRef (file pass0 : List Char) : List Char :=
  Tag ("template \"".data ++ CleanTemplateName file ++ "\" ".data ++
    (if pass0.isEmpty then ['.'] else pass0))

/-- Worker of ContainsSubTpl over the precomputed list of Include matches.
For each match: resolve the path; if it is not yet in the pool, read it (a
read failure makes the error text the entire result), register the empty
placeholder before recursing into the included body, then store the fully
expanded body; finally replace every occurrence of the matched text by the
reference construct and continue.  The result carries the proof that the
pool keys only grow, which also bounds the recursion. -/
def ContainsSubTplAux (fs : FS) (dir : List Char) :
    (ms : List (List Char × List Char × List Char)) → (content : List Char) →
    (pool : Pool) → {r : CSTRes // PoolLe pool r.pool}
  | [], content0, pool => ⟨⟨content0, pool, []⟩, PoolLe_refl pool⟩
  | (matched, file0, pass0) :: rest, content, pool =>
    let file := TmplPath dir (file0 ++ extSuffix)
    if hmem : lookupA file pool = none then
      match hread : RawContent fs file with
      | .error e =>
        ⟨⟨"RenderTemplate ".data ++ file ++ " read err: ".data ++ e, pool, [file]⟩,
          PoolLe_refl pool⟩
      | .ok b =>
        let r1 := ContainsSubTplAux fs dir (findCalls "Include".data b) b (setK pool file [])
        let pool2 := setK r1.val.pool file r1.val.text
        let r2 := ContainsSubTplAux fs dir rest
          (replaceAll matched (subTplRef file pass0) content) pool2
        ⟨⟨r2.val.text, r2.val.pool, file :: (r1.val.reads ++ r2.val.reads)⟩, by
          refine PoolLe_trans (PoolLe_setK pool file []) ?_
          refine PoolLe_trans r1.property ?_
          exact PoolLe_trans (PoolLe_setK r1.val.pool file r1.val.text) r2.property⟩
    else
      let r2 := ContainsSubTplAux fs dir rest
        (replaceAll matched (subTplRef file pass0) content) pool
      ⟨⟨r2.val.text, r2.val.pool, r2.val.reads⟩, r2.property⟩
termination_by ms content pool => (missingCount (keysOf fs) (keysOf pool), ms.length)
decreasing_by
  · apply Prod.Lex.left
    apply missingCount_lt (keysOf fs) file
    · exact RawContent_ok_mem hread
    · exact (lookupA_eq_none_iff pool file).1 hmem
    · exact (mem_keysOf_setK pool file [] file).2 (Or.inl rfl)
    · intro a ha
      exact (mem_keysOf_setK pool file [] a).2 (Or.inr ha)
  · have hle : missingCount (keysOf fs) (keysOf pool2) ≤
        missingCount (keysOf fs) (keysOf pool) := by
      apply missingCount_mono
      intro a ha
      exact r1.property a ((mem_keysOf_setK pool file [] a).2 (Or.inr ha)) |>
        fun hh => (mem_keysOf_setK r1.val.pool file r1.val.text a).2 (Or.inr hh)
    rcases Nat.lt_or_ge (missingCount (keysOf fs) (keysOf pool2))
        (missingCount (keysOf fs) (keysOf pool)) with hlt | hge
    · exact Prod.Lex.left _ _ hlt
    · have heq : missingCount (keysOf fs) (keysOf pool2) =
          missingCount (keysOf fs) (keysOf pool) := Nat.le_antisymm hle hge
      rw [heq]
      exact Prod.Lex.right _ (by simp)
  · exact Prod.Lex.right _ (by simp)

/-- ContainsSubTpl of the engine: recursively expand every Include directive
of the content against the pool. -/
def ContainsSubTpl (fs : FS) (dir content : List Char) (pool : Pool) : CSTRes :=
  (ContainsSubTplAux fs dir (findCalls "Include".data content) content pool).val

end StdRender

namespace StdRender

/-- Function-callback registry of the rendering context: GetFunc restricted to
callables of signature (string, string) to string; a name bound to a value of
any other type fails the source's type assertion and counts as unregistered. -/
abbrev Reg := AMap (List Char → List Char → List Char)

/-- Memoisation key of a Function directive: name, colon, argument text. -/
def clipKey (fn arg : List Char) : List Char := fn ++ [':'] ++ arg

/-- Worker of ContainsFunctionResult over the precomputed Function matches.
For each match: if the key is absent from the clip map, invoke the registered
callback (logging the invocation) or store the empty string when no callback
is registered; then replace every occurrence of the matched text by the
memoised clip.  Returns the content, the clip map and the invocation log. -/
def ContainsFunctionResultAux (reg : Reg) (orig : List Char) :
    List (List Char × List Char × List Char) → List Char → AMap (List Char) →
    List Char × AMap (List Char) × List (List Char)
  | [], content, clips => (content, clips, [])
  | (matched, fn, arg) :: rest, content, clips =>
    let key := clipKey fn arg
    let step : AMap (List Char) × List (List Char) :=
      match lookupA key clips with
      | some _ => (clips, [])
      | none =>
        match lookupA fn reg with
        | some f => (setK clips key (f orig arg), [key])
        | none => (setK clips key [], [])
    let v := (lookupA key step.1).getD []
    let r := ContainsFunctionResultAux reg orig rest (replaceAll matched v content) step.1
    (r.1, r.2.1, step.2 ++ r.2.2)

/-- ContainsFunctionResult of the engine: resolve every Function directive of
the content against the shared clip map. -/
def ContainsFunctionResult (reg : Reg) (orig content : List Char)
    (clips : AMap (List Char)) : List Char × AMap (List Char) × List (List Char) :=
  ContainsFunctionResultAux reg orig (findCalls "Function".data content) content clips

/-- Worker of ParseBlock over the precomputed paired-Block matches: harvest
each definition into the block set after include-expanding its body against
the shared pool. -/
def ParseBlockAux (fs : FS) (dir : List Char) :
    List (List Char × List Char × List Char) → Pool → Pool →
    Pool × Pool × List (List Char)
  | [], subcs, extcs => (subcs, extcs, [])
  | (_, bn, body) :: rest, subcs, extcs =>
    let r := ContainsSubTpl fs dir body subcs
    let rr := ParseBlockAux fs dir rest r.pool (setK extcs bn r.text)
    (rr.1, rr.2.1, r.reads ++ rr.2.2)

/-- ParseBlock of the engine. -/
def ParseBlock (fs : FS) (dir content : List Char) (subcs extcs : Pool) :
    Pool × Pool × List (List Char) :=
  ParseBlockAux fs dir (findBlocks content) subcs extcs

/-- Re-wrapped paired Block emitted into a parent document that itself has a
parent, so that the next hop harvests the spliced definition. -/
def blockWrapTag (bn v : List Char) : List Char :=
  delimL ++ "Block".data ++ " \"".data ++ bn ++ "\"".data ++ delimR ++
    v ++ delimL ++ "/Block".data ++ delimR

/-- Reference construct substituted for a Block occurrence in the terminal
layout: a template invocation of the (possibly suffixed) block name. -/
def blockRef (name pass : List Char) : List Char :=
  Tag ("template \"".data ++ name ++ "\" ".data ++ pass)

/-- Result of one ParseExtend hop. -/
structure PERes where
  content : List Char
  extTag : Option (List Char × List Char)
  extcs : Pool
  subcs : Pool
  reads : List (List Char)

/-- State threaded through the match loop of ParseExtend. -/
structure PEState where
  content : List Char
  extcs : Pool
  subcs : Pool
  recm : AMap Nat
  sup : Pool
  reads : List (List Char)

/-- Worker of ParseExtend over the paired-Block matches of the newly loaded
ancestor document.  For a match whose name has a descendant definition in the
block set: compute the duplicate suffix; if the descendant definition contains
the Super marker (or the name was already recorded as super-bearing), splice
this occurrence's include-expanded inner content into the descendant
definition at the first marker occurrence; then rewrite the occurrence in the
document (re-wrapped when the ancestor itself extends further, otherwise a
template reference).  A match without a descendant definition is left alone
when a further parent exists and is replaced by its own inner content
otherwise.  The SuperTag of the default configuration is nonempty, so the
super branch of the source is always active. -/
def ParseExtendAux (fs : FS) (dir : List Char) (hasParent : Bool) (pass : List Char) :
    List (List Char × List Char × List Char) → PEState → PEState
  | [], st => st
  | (matched, bn, innerStr) :: rest, st =>
    match lookupA bn st.extcs with
    | some v0 =>
      let recStep : List Char × AMap Nat :=
        match lookupA bn st.recm with
        | some idx => ('.' :: (toString (idx + 1)).data, setK st.recm bn (idx + 1))
        | none => ([], setK st.recm bn 0)
      let suffix := recStep.1
      let supStep : Bool × List Char × Pool :=
        match lookupA bn st.sup with
        | some sv => (true, sv, st.sup)
        | none =>
          if containsLit superMarker v0 then (true, v0, setK st.sup bn v0)
          else (false, v0, st.sup)
      let hasSuper := supStep.1
      let spliced : List Char × Pool × Pool × List (List Char) :=
        if hasSuper then
          let r := ContainsSubTpl fs dir innerStr st.subcs
          let v2 := replaceFirst superMarker r.text supStep.2.1
          (v2, (if suffix.isEmpty then setK st.extcs bn v2 else st.extcs), r.pool, r.reads)
        else (supStep.2.1, st.extcs, st.subcs, [])
      let v2 := spliced.1
      let extcs2 :=
        if suffix.isEmpty then spliced.2.1 else setK spliced.2.1 (bn ++ suffix) v2
      let rec2 :=
        if suffix.isEmpty then recStep.2 else setK recStep.2 (bn ++ suffix) 0
      let content2 :=
        if hasParent then replaceFirst matched (blockWrapTag bn v2) st.content
        else replaceFirst matched (blockRef (bn ++ suffix) pass) st.content
      ParseExtendAux fs dir hasParent pass rest
        ⟨content2, extcs2, spliced.2.2.1, rec2, supStep.2.2, st.reads ++ spliced.2.2.2⟩
    | none =>
      let content2 :=
        if hasParent then st.content else replaceFirst matched innerStr st.content
      ParseExtendAux fs dir hasParent pass rest
        ⟨content2, st.extcs, st.subcs, st.recm, st.sup, st.reads⟩

/-- Retain only the block names recorded while walking the layout (the orphan
pruning loop of the source: entries of the block set whose key was never
recorded are deleted). -/
def pruneByRec (extcs : Pool) (rec : AMap Nat) : Pool :=
  extcs.filter (fun kv => (lookupA kv.1 rec).isSome)

/-- ParseExtend of the engine on a newly loaded ancestor document: detect a
further Extend directive, substitute self-closing placeholders from the block
set, process every paired Block occurrence, and prune orphan block names. -/
def ParseExtend (fs : FS) (dir content : List Char) (extcs : Pool)
    (passObject : List Char) (subcs : Pool) : PERes :=
  let m := matchExtendTag content
  let hasParent := m.isSome
  let pass := if passObject.isEmpty then ['.'] else passObject
  let content1 := replaceSelf (fun nm => (lookupA nm extcs).getD []) content
  let ms := findBlocks content1
  let st := ParseExtendAux fs dir hasParent pass ms ⟨content1, extcs, subcs, [], [], []⟩
  ⟨st.content, m, pruneByRec st.extcs st.recm, st.subcs, st.reads⟩

end StdRender

namespace StdRender

/-- Values of the bound function map.  Only the two block helpers injected by
setFunc are ever inspected by this layer; user-supplied callables of the
rendering context are carried around as inert values. -/
inductive FuncVal where
  | varPred : (List (List Char) → Bool) → FuncVal
  | user : Nat → FuncVal

/-- Function map bound onto a compiled template. -/
abbrev FMap := AMap FuncVal

/-- Compiled template tree: the composed main document plus its named
sub-definitions (included files and block definitions) and the bound function
map.  Modelled from the spec: the downstream evaluator (html/template) is a
black box out of scope; a tree is represented by its source text. -/
structure Template where
  name : List Char
  text : List Char
  subs : AMap (List Char)
  funcMap : FMap

/-- tplInfo of the source: a tree slot plus the set of defined layout blocks. -/
structure TplInfo where
  template : Option Template
  blocks : List (List Char)

/-- CcRel of the source: the dependent cache keys recorded against a file plus
the two tree slots (index 0 standalone, index 1 child). -/
structure CcRel where
  rel : List (List Char)
  tpl0 : TplInfo
  tpl1 : TplInfo

/-- Engine state: the template directory and the compiled-tree cache. -/
structure Engine where
  templateDir : List Char
  cachedRelation : AMap CcRel

/-- Rendering context: the per-call function map (Funcs) and the
function-callback registry (GetFunc). -/
structure Ctx where
  funcs : FMap
  reg : Reg

/-- Black-box evaluator acceptance: some e means the composed document is
rejected with error text e, none means it parses. -/
abbrev Ev := List Char → Option (List Char)

/-- Membership loop of the hasBlock helper: every listed name must be a
defined block. -/
def hasBlockFn (blocks : List (List Char)) : List (List Char) → Bool
  | [] => true
  | b :: bs => if b ∈ blocks then hasBlockFn blocks bs else false

/-- Membership loop of the hasAnyBlock helper: some listed name must be a
defined block. -/
def hasAnyBlockFn (blocks : List (List Char)) : List (List Char) → Bool
  | [] => false
  | b :: bs => if b ∈ blocks then true else hasAnyBlockFn blocks bs

/-- setFunc of the source: inject the hasBlock and hasAnyBlock helpers into a
function map.  The source closures read the tplInfo's block set through a
shared pointer whose Blocks field is completed before any execution can call
them; the model therefore binds the block set reached at each return point of
parse. -/
def setFunc (blocks : List (List Char)) (funcMap : FMap) : FMap :=
  setK (setK funcMap "hasBlock".data (.varPred (hasBlockFn blocks)))
    "hasAnyBlock".data (.varPred (hasAnyBlockFn blocks))

/-- Funcs of html/template: merge the argument map into the template's bound
map, overriding existing names. -/
def mergeFM (base extra : FMap) : FMap :=
  match extra with
  | [] => base
  | (k, v) :: rest => mergeFM (setK base k v) rest

/-- Set-insert into the block-name set. -/
def insertSet (l : List (List Char)) (k : List Char) : List (List Char) :=
  if k ∈ l then l else l ++ [k]

/-- Fresh cache record for a key: the key itself as sole dependent, both tree
slots empty. -/
def freshRel (cachedKey : List Char) : CcRel := ⟨[cachedKey], ⟨none, []⟩, ⟨none, []⟩⟩

/-- Bookkeeping of the extend loop: ensure the parent file has a cache record
and that the current cache key is among its dependents. -/
def touchRel (cache : AMap CcRel) (extFile cachedKey : List Char) : AMap CcRel :=
  match lookupA extFile cache with
  | none => setK cache extFile (freshRel cachedKey)
  | some v =>
    if cachedKey ∈ v.rel then cache
    else setK cache extFile { v with rel := v.rel ++ [cachedKey] }

/-- Result of the bounded extend-chain loop. -/
structure LoopRes where
  res : Except (List Char) (List Char)
  subcs : Pool
  extcs : Pool
  cache : AMap CcRel
  reads : List (List Char)

/-- Bounded extend-chain walk of parse (at most 10 hops while an Extend match
is present): harvest the current document's blocks, load the parent, resolve
it with ParseExtend, record the dependency, and continue with the parent.  A
parent read failure aborts the walk with the error. -/
def extendLoop (fs : FS) (dir cachedKey : List Char) :
    Nat → List Char → Option (List Char × List Char) → Pool → Pool →
    AMap CcRel → LoopRes
  | 0, content, _, subcs, extcs, cache => ⟨.ok content, subcs, extcs, cache, []⟩
  | _ + 1, content, none, subcs, extcs, cache => ⟨.ok content, subcs, extcs, cache, []⟩
  | i + 1, content, some (extName, passObj), subcs, extcs, cache =>
    let pb := ParseBlock fs dir content subcs extcs
    let extFile := TmplPath dir (extName ++ extSuffix)
    match RawContent fs extFile with
    | .error e => ⟨.error e, pb.1, pb.2.1, cache, pb.2.2 ++ [extFile]⟩
    | .ok b =>
      let pe := ParseExtend fs dir b pb.2.1 passObj pb.1
      let cache1 := touchRel cache extFile cachedKey
      let lr := extendLoop fs dir cachedKey i pe.content pe.extTag pe.subcs pe.extcs cache1
      ⟨lr.res, lr.subcs, lr.extcs, lr.cache, pb.2.2 ++ [extFile] ++ pe.reads ++ lr.reads⟩

/-- Define-wrapped named sub-document handed to the evaluator. -/
def defineWrap (name body : List Char) : List Char :=
  Tag ("define \"".data ++ CleanTemplateName name ++ "\"".data) ++ body ++ Tag "end".data

/-- State threaded through the sub-template definition loop of parse. -/
structure SubFoldState where
  subs : AMap (List Char)
  cache : AMap CcRel
  clips : AMap (List Char)
  calls : List (List Char)

/-- Sub-template definition loop of parse: reuse a cached child tree when one
exists (recording the dependency), otherwise resolve Function clips in the
body, define-wrap it, hand it to the evaluator (a rejection aborts parse with
the diagnostic as that sub-tree), and cache the child tree. -/
def subcsFold (ev : Ev) (reg : Reg) (orig cachedKey mainName mainText : List Char) :
    List (List Char × List Char) → SubFoldState →
    Except (List Char × SubFoldState) SubFoldState
  | [], st => .ok st
  | (name, subc) :: rest, st =>
    match lookupA name st.cache with
    | some v =>
      match v.tpl1.template with
      | some childT =>
        let v1 := { v with rel := if cachedKey ∈ v.rel then v.rel else v.rel ++ [cachedKey] }
        subcsFold ev reg orig cachedKey mainName mainText rest
          { st with subs := setK st.subs name childT.text, cache := setK st.cache name v1 }
      | none =>
        if name = mainName then
          let t : Template := ⟨mainName, mainText, [], []⟩
          let rel1 := if cachedKey ∈ v.rel then v.rel else v.rel ++ [cachedKey]
          let v1 := { v with rel := rel1, tpl1 := { v.tpl1 with template := some t } }
          subcsFold ev reg orig cachedKey mainName mainText rest
            { st with cache := setK st.cache name v1 }
        else
          let cf := ContainsFunctionResult reg orig subc st.clips
          match ev (defineWrap name cf.1) with
          | some e =>
            .error (e, { st with
              subs := setK st.subs name ("Parse File ".data ++ name ++ " err: ".data ++ e)
              clips := cf.2.1
              calls := st.calls ++ cf.2.2 })
          | none =>
            let t : Template := ⟨CleanTemplateName name, cf.1, [], []⟩
            let rel1 := if cachedKey ∈ v.rel then v.rel else v.rel ++ [cachedKey]
            let v1 := { v with rel := rel1, tpl1 := { v.tpl1 with template := some t } }
            subcsFold ev reg orig cachedKey mainName mainText rest
              { st with
                subs := setK st.subs name cf.1
                cache := setK st.cache name v1
                clips := cf.2.1
                calls := st.calls ++ cf.2.2 }
    | none =>
      if name = mainName then
        let t : Template := ⟨mainName, mainText, [], []⟩
        subcsFold ev reg orig cachedKey mainName mainText rest
          { st with cache := setK st.cache name ⟨[cachedKey], ⟨none, []⟩, ⟨some t, []⟩⟩ }
      else
        let cf := ContainsFunctionResult reg orig subc st.clips
        match ev (defineWrap name cf.1) with
        | some e =>
          .error (e, { st with
            subs := setK st.subs name ("Parse File ".data ++ name ++ " err: ".data ++ e)
            clips := cf.2.1
            calls := st.calls ++ cf.2.2 })
        | none =>
          let t : Template := ⟨CleanTemplateName name, cf.1, [], []⟩
          subcsFold ev reg orig cachedKey mainName mainText rest
            { st with
              subs := setK st.subs name cf.1
              cache := setK st.cache name ⟨[cachedKey], ⟨none, []⟩, ⟨some t, []⟩⟩
              clips := cf.2.1
              calls := st.calls ++ cf.2.2 }

/-- State threaded through the block definition loop of parse. -/
structure ExtFoldState where
  subs : AMap (List Char)
  clips : AMap (List Char)
  calls : List (List Char)
  blocks : List (List Char)

/-- Block definition loop of parse: for every surviving block, resolve
Function clips, define-wrap the body, hand it to the evaluator (a rejection
aborts parse with the diagnostic as that sub-tree), and record the name in
the entry's block set. -/
def extcsFold (ev : Ev) (reg : Reg) (orig mainName : List Char) :
    List (List Char × List Char) → ExtFoldState →
    Except (List Char × ExtFoldState) ExtFoldState
  | [], st => .ok st
  | (name, extc) :: rest, st =>
    if name = mainName then
      extcsFold ev reg orig mainName rest { st with blocks := insertSet st.blocks name }
    else
      let cf := ContainsFunctionResult reg orig extc st.clips
      match ev (defineWrap name cf.1) with
      | some e =>
        .error (e, { st with
          subs := setK st.subs name ("Parse Block ".data ++ name ++ " err: ".data ++ e)
          clips := cf.2.1
          calls := st.calls ++ cf.2.2 })
      | none =>
        extcsFold ev reg orig mainName rest
          { subs := setK st.subs name cf.1
            clips := cf.2.1
            calls := st.calls ++ cf.2.2
            blocks := insertSet st.blocks name }

/-- Observation log of one parse: content-source read attempts and Function
callback invocations, in order. -/
structure Obs where
  reads : List (List Char)
  calls : List (List Char)

/-- Result of parse: the compiled template, the error of the source's second
return value, the engine state after, and the observations. -/
structure ParseOut where
  tmpl : Template
  err : Option (List Char)
  eng : Engine
  obs : Obs

/-- Compile path of parse (no standalone cache hit): read the main file,
walk the extend chain, expand includes, resolve Function clips, hand the
composed document to the evaluator, then define the sub-templates and the
surviving blocks, and finally store the standalone entry.  Every failure
converts into a diagnostic tree and is also returned as the error. -/
def parseCompile (fs : FS) (ev : Ev) (ctx : Ctx) (eng : Engine) (rel0 : CcRel)
    (cachedKey orig : List Char) : ParseOut :=
  let funcMap := ctx.funcs
  let mainName := CleanTemplateName cachedKey
  match RawContent fs cachedKey with
  | .error e =>
    ⟨⟨mainName, e, [], setFunc rel0.tpl0.blocks funcMap⟩, some e, eng, ⟨[cachedKey], []⟩⟩
  | .ok content0 =>
    let m0 := matchExtendTag content0
    let content1 := replaceSelf (fun _ => []) content0
    let lr := extendLoop fs eng.templateDir cachedKey 10 content1 m0 [] [] eng.cachedRelation
    match lr.res with
    | .error e =>
      ⟨⟨mainName, e, [], setFunc rel0.tpl0.blocks funcMap⟩, some e,
        { eng with cachedRelation := lr.cache }, ⟨cachedKey :: lr.reads, []⟩⟩
    | .ok contentL =>
      let r2 := ContainsSubTpl fs eng.templateDir contentL lr.subcs
      let cf := ContainsFunctionResult ctx.reg orig r2.text []
      let content3 := cf.1
      let reads0 := cachedKey :: (lr.reads ++ r2.reads)
      match ev content3 with
      | some e =>
        ⟨⟨mainName, "Parse ".data ++ cachedKey ++ " err: ".data ++ e, [],
            setFunc rel0.tpl0.blocks funcMap⟩, some e,
          { eng with cachedRelation := lr.cache }, ⟨reads0, cf.2.2⟩⟩
      | none =>
        match subcsFold ev ctx.reg orig cachedKey mainName content3 r2.pool
            ⟨[], lr.cache, cf.2.1, cf.2.2⟩ with
        | .error es =>
          ⟨⟨mainName, content3, es.2.subs, setFunc rel0.tpl0.blocks funcMap⟩, some es.1,
            { eng with cachedRelation := es.2.cache }, ⟨reads0, es.2.calls⟩⟩
        | .ok st1 =>
          match extcsFold ev ctx.reg orig mainName lr.extcs
              ⟨st1.subs, st1.clips, st1.calls, rel0.tpl0.blocks⟩ with
          | .error es =>
            ⟨⟨mainName, content3, es.2.subs, setFunc es.2.blocks funcMap⟩, some es.1,
              { eng with cachedRelation := st1.cache }, ⟨reads0, es.2.calls⟩⟩
          | .ok st2 =>
            let tmplF : Template := ⟨mainName, content3, st2.subs, setFunc st2.blocks funcMap⟩
            let relF : CcRel := { rel0 with tpl0 := ⟨some tmplF, st2.blocks⟩ }
            ⟨tmplF, none,
              { eng with cachedRelation := setK st1.cache cachedKey relF },
              ⟨reads0, st2.calls⟩⟩

/-- parse of the engine.  The function map handed to the template is the
per-call context map (the engine-level getFuncs hook is unset by the
constructor); a cached standalone tree short-circuits everything and is
returned after re-binding the current function map. -/
def parse (fs : FS) (ev : Ev) (ctx : Ctx) (eng : Engine) (tmplName : List Char) : ParseOut :=
  let orig := tmplName
  let cachedKey := TmplPath eng.templateDir (tmplName ++ extSuffix)
  match lookupA cachedKey eng.cachedRelation with
  | some rel =>
    match rel.tpl0.template with
    | some tm =>
      let fm := setFunc rel.tpl0.blocks ctx.funcs
      let tm1 := { tm with funcMap := mergeFM tm.funcMap fm }
      let rel1 := { rel with tpl0 := { rel.tpl0 with template := some tm1 } }
      ⟨tm1, none, { eng with cachedRelation := setK eng.cachedRelation cachedKey rel1 },
        ⟨[], []⟩⟩
    | none => parseCompile fs ev ctx eng rel cachedKey orig
  | none => parseCompile fs ev ctx eng (freshRel cachedKey) cachedKey orig

/-- ExecuteTemplate of the black-box evaluator.  Modelled from the spec:
expression evaluation is a non-goal of the spec; executing a tree emits its
text (exactly the observable on the diagnostic trees at issue, which carry no
directives). -/
def ExecuteTemplate (t : Template) : List Char := t.text

/-- Render of the engine: parse, propagate a parse error to the caller,
otherwise execute the tree into the writer.  The per-request reentrancy lock
is concurrency machinery without sequential content and is not modelled. -/
def Render (fs : FS) (ev : Ev) (ctx : Ctx) (eng : Engine) (tmplName : List Char) :
    Except (List Char) (List Char) × Engine × Obs :=
  let p := parse fs ev ctx eng tmplName
  match p.err with
  | some e => (.error e, p.eng, p.obs)
  | none => (.ok (ExecuteTemplate p.tmpl), p.eng, p.obs)

/-- Fetch of the engine: parse, discard the error, execute whatever tree came
back (on failure that tree is the diagnostic text) into a string. -/
def Fetch (fs : FS) (ev : Ev) (ctx : Ctx) (eng : Engine) (tmplName : List Char) :
    List Char × Engine × Obs :=
  let p := parse fs ev ctx eng tmplName
  (ExecuteTemplate p.tmpl, p.eng, p.obs)

end StdRender

namespace StdRender

theorem lookupA_setK_self {α : Type} (m : AMap α) (k : List Char) (v : α) :
    lookupA k (setK m k v) = some v := by
  induction m with
  | nil => simp [setK, lookupA]
  | cons hd tl ih =>
    cases hd with
    | mk k' v' =>
      by_cases h : k' = k
      · subst h
        simp [setK, lookupA]
      · simp [setK, lookupA, h, ih]

theorem lookupA_setK_ne {α : Type} (m : AMap α) (k k' : List Char) (v : α)
    (h : k' ≠ k) : lookupA k' (setK m k v) = lookupA k' m := by
  induction m with
  | nil => simp [setK, lookupA, if_neg (Ne.symm h)]
  | cons hd tl ih =>
    cases hd with
    | mk k0 v0 =>
      by_cases h0 : k0 = k
      · subst h0
        simp [setK, lookupA, if_neg (Ne.symm h)]
      · by_cases h1 : k0 = k'
        · subst h1
          simp [setK, lookupA, h0]
        · simp [setK, lookupA, h0, h1, ih]

theorem lookupA_filter {α : Type} (q : List Char × α → Bool) (l : AMap α)
    (k : List Char) (v : α) (h : lookupA k l = some v) (hq : q (k, v) = true) :
    lookupA k (List.filter q l) = some v := by
  induction l with
  | nil => cases h
  | cons hd tl ih =>
    cases hd with
    | mk k' v' =>
      by_cases hk : k' = k
      · subst hk
        rw [lookupA, if_pos rfl] at h
        cases h
        simp [List.filter, hq, lookupA]
      · rw [lookupA, if_neg hk] at h
        by_cases hh : q (k', v') = true
        · simp [List.filter, hh, lookupA, hk, ih h]
        · simp only [List.filter]
          rw [Bool.not_eq_true] at hh
          rw [hh]
          exact ih h

theorem stripLit_append (p r : List Char) : stripLit p (p ++ r) = some r := by
  induction p with
  | nil => rfl
  | cons c cs ih => simp [stripLit, ih]

theorem containsLit_here (pat post : List Char) :
    containsLit pat (pat ++ post) = true := by
  rw [containsLit]
  cases hp : pat ++ post with
  | nil =>
    rw [splitAtLit]
    cases pat with
    | nil => simp [stripLit]
    | cons a b => simp at hp
  | cons c cs =>
    rw [splitAtLit, ← hp, stripLit_append]
    simp

theorem containsLit_append_self (pat pre post : List Char) :
    containsLit pat (pre ++ pat ++ post) = true := by
  induction pre with
  | nil =>
    rw [List.nil_append]
    exact containsLit_here pat post
  | cons c cs ih =>
    rw [containsLit]
    rw [show c :: cs ++ pat ++ post = c :: (cs ++ pat ++ post) by simp]
    rw [splitAtLit]
    cases hs : stripLit pat (c :: (cs ++ pat ++ post)) with
    | some r => simp
    | none =>
      rw [containsLit] at ih
      cases h2 : splitAtLit pat (cs ++ pat ++ post) with
      | some ba => simp
      | none =>
        rw [h2] at ih
        simp [Option.isSome] at ih

/-- Include expansion with no Include match is the identity and performs no
reads. -/
theorem ContainsSubTpl_noop (fs : FS) (dir content : List Char) (pool : Pool)
    (h : findCalls "Include".data content = []) :
    ContainsSubTpl fs dir content pool = ⟨content, pool, []⟩ := by
  rw [ContainsSubTpl, h, ContainsSubTplAux]

/-- Function-clip resolution with no Function match is the identity on the
content and the clip map and performs no invocations. -/
theorem ContainsFunctionResult_noop (reg : Reg) (orig content : List Char)
    (clips : AMap (List Char)) (h : findCalls "Function".data content = []) :
    ContainsFunctionResult reg orig content clips = (content, clips, []) := by
  rw [ContainsFunctionResult, h, ContainsFunctionResultAux]

theorem replaceSelfF_noop (f : List Char → List Char) :
    ∀ n s, findSelfF n s = [] → replaceSelfF f n s = s := by
  intro n
  induction n with
  | zero => intro s _; rfl
  | succ n ih =>
    intro s hs
    cases s with
    | nil => rfl
    | cons c cs =>
      rw [findSelfF] at hs
      rw [replaceSelfF]
      cases hm : matchSelfAt (c :: cs) with
      | some pr =>
        rw [hm] at hs
        cases hs
      | none =>
        rw [hm] at hs
        rw [ih cs hs]

/-- Placeholder substitution with no self-closing Block match is the
identity. -/
theorem replaceSelf_noop (f : List Char → List Char) (s : List Char)
    (h : findSelf s = []) : replaceSelf f s = s :=
  replaceSelfF_noop f s.length s h

/-- ParseBlock with no Block match leaves both maps unchanged. -/
theorem ParseBlock_noop (fs : FS) (dir content : List Char) (subcs extcs : Pool)
    (h : findBlocks content = []) :
    ParseBlock fs dir content subcs extcs = (subcs, extcs, []) := by
  rw [ParseBlock, h, ParseBlockAux]

end StdRender

namespace StdRender

/-- Shared concrete fixtures for witnesses: an evaluator accepting every
document, an empty rendering context, and an engine over directory t with an
empty cache. -/
def evAccept : Ev := fun _ => none

/-- Empty rendering context. -/
def ctxEmpty : Ctx := ⟨[], []⟩

/-- Engine over template directory t with an empty cache. -/
def engT : Engine := ⟨"t".data, []⟩

theorem extendLoop_ten_none (fs : FS) (dir ck content : List Char)
    (subcs extcs : Pool) (cache : AMap CcRel) :
    extendLoop fs dir ck 10 content none subcs extcs cache =
      ⟨.ok content, subcs, extcs, cache, []⟩ := rfl

/-- C4: Fetch on a logical name whose file cannot be read returns the
diagnostic string, which is exactly the content-source error text naming the
resolved file path; the parse error is not propagated by Fetch (its result is
this string). -/
theorem C4_fetch_missing_file (fs : FS) (ev : Ev) (ctx : Ctx) (eng : Engine)
    (nm key : List Char)
    (hkey : key = TmplPath eng.templateDir (nm ++ extSuffix))
    (hmiss : lookupA key eng.cachedRelation = none)
    (hfile : lookupA key fs = none) :
    (Fetch fs ev ctx eng nm).1 = openErr key ∧
    containsLit key (Fetch fs ev ctx eng nm).1 = true ∧
    (parse fs ev ctx eng nm).err = some (openErr key) := by
  subst hkey
  have hr : RawContent fs (TmplPath eng.templateDir (nm ++ extSuffix)) =
      .error (openErr (TmplPath eng.templateDir (nm ++ extSuffix))) := by
    rw [RawContent, readFile, hfile]
  refine ⟨?_, ?_, ?_⟩
  · simp only [Fetch, parse, hmiss, parseCompile, hr, ExecuteTemplate]
  · simp only [Fetch, parse, hmiss, parseCompile, hr, ExecuteTemplate, openErr]
    exact containsLit_append_self _ _ _
  · simp only [parse, hmiss, parseCompile, hr]

theorem C4_fetch_missing_file_witness :
    (Fetch [] evAccept ctxEmpty engT "x".data).1 = openErr "t/x.html".data :=
  (C4_fetch_missing_file [] evAccept ctxEmpty engT "x".data "t/x.html".data
    rfl rfl rfl).1

end StdRender

namespace StdRender

/-- C5 counterexample: on a content-load failure Render does not write the
diagnostic and return cleanly; it returns the error to its caller. -/
theorem C5_render_counterexample :
    (Render [] evAccept ctxEmpty engT "x".data).1 = .error (openErr "t/x.html".data) ∧
    (Render [] evAccept ctxEmpty engT "x".data).1 ≠ .ok (openErr "t/x.html".data) := by
  constructor
  · rfl
  · intro h
    cases h

/-- C5 amended: every content-load error and every evaluator rejection during
compilation turns the diagnostic string into the compiled tree, and Fetch
returns that diagnostic inline without propagating; Render however checks the
error of parse first and returns it to its caller without executing the
tree. -/
theorem C5_diagnostic_tree (fs1 : FS) (ev1 : Ev) (ctx1 : Ctx) (eng1 : Engine)
    (nm1 key1 : List Char)
    (hkey1 : key1 = TmplPath eng1.templateDir (nm1 ++ extSuffix))
    (hmiss1 : lookupA key1 eng1.cachedRelation = none)
    (hfile1 : lookupA key1 fs1 = none)
    (fs2 : FS) (ev2 : Ev) (ctx2 : Ctx) (eng2 : Engine) (nm2 key2 c pe : List Char)
    (hkey2 : key2 = TmplPath eng2.templateDir (nm2 ++ extSuffix))
    (hmiss2 : lookupA key2 eng2.cachedRelation = none)
    (hraw2 : RawContent fs2 key2 = .ok c)
    (hext : matchExtendTag c = none)
    (hself : findSelf c = [])
    (hinc : findCalls "Include".data c = [])
    (hfun : findCalls "Function".data c = [])
    (hev : ev2 c = some pe) :
    ((parse fs1 ev1 ctx1 eng1 nm1).tmpl.text = openErr key1 ∧
      (Fetch fs1 ev1 ctx1 eng1 nm1).1 = openErr key1 ∧
      (Render fs1 ev1 ctx1 eng1 nm1).1 = .error (openErr key1)) ∧
    ((parse fs2 ev2 ctx2 eng2 nm2).tmpl.text =
        "Parse ".data ++ key2 ++ " err: ".data ++ pe ∧
      (Fetch fs2 ev2 ctx2 eng2 nm2).1 = "Parse ".data ++ key2 ++ " err: ".data ++ pe ∧
      (Render fs2 ev2 ctx2 eng2 nm2).1 = .error pe) := by
  subst hkey1
  subst hkey2
  have hr1 : RawContent fs1 (TmplPath eng1.templateDir (nm1 ++ extSuffix)) =
      .error (openErr (TmplPath eng1.templateDir (nm1 ++ extSuffix))) := by
    rw [RawContent, readFile, hfile1]
  have hp2 : parse fs2 ev2 ctx2 eng2 nm2 =
      ⟨⟨CleanTemplateName (TmplPath eng2.templateDir (nm2 ++ extSuffix)),
          "Parse ".data ++ TmplPath eng2.templateDir (nm2 ++ extSuffix) ++
            " err: ".data ++ pe, [],
          setFunc (freshRel (TmplPath eng2.templateDir (nm2 ++ extSuffix))).tpl0.blocks
            ctx2.funcs⟩, some pe,
        { eng2 with cachedRelation := eng2.cachedRelation },
        ⟨[TmplPath eng2.templateDir (nm2 ++ extSuffix)], []⟩⟩ := by
    simp only [parse, hmiss2, parseCompile, hraw2, hext,
      replaceSelf_noop _ _ hself, extendLoop_ten_none,
      ContainsSubTpl_noop _ _ _ _ hinc, ContainsFunctionResult_noop _ _ _ _ hfun, hev,
      List.append_nil, List.nil_append]
  refine ⟨⟨?_, ?_, ?_⟩, ?_, ?_, ?_⟩
  · simp only [parse, hmiss1, parseCompile, hr1]
  · simp only [Fetch, parse, hmiss1, parseCompile, hr1, ExecuteTemplate]
  · simp only [Render, parse, hmiss1, parseCompile, hr1]
  · rw [hp2]
  · rw [Fetch, hp2, ExecuteTemplate]
  · rw [Render, hp2]

theorem C5_diagnostic_tree_witness :
    (Fetch [] evAccept ctxEmpty engT "x".data).1 = openErr "t/x.html".data ∧
    (Render [("t/y.html".data, "oops".data)] (fun _ => some "bad".data) ctxEmpty engT
      "y".data).1 = .error "bad".data := by
  have h := C5_diagnostic_tree [] evAccept ctxEmpty engT "x".data "t/x.html".data
    rfl rfl rfl
    [("t/y.html".data, "oops".data)] (fun _ => some "bad".data) ctxEmpty engT
    "y".data "t/y.html".data "oops".data "bad".data
    rfl rfl rfl rfl rfl rfl rfl rfl
  exact ⟨h.1.2.1, h.2.2.2⟩

end StdRender

namespace StdRender

unseal ContainsSubTplAux in
/-- C6 counterexample: after a failed compile nothing is cached, so a second
parse of the same name re-invokes the content read (compilation is
re-attempted), and a fix to the file is picked up on that next call with no
file-change event and no ClearCache on the engine state. -/
theorem C6_counterexample :
    (parse [] evAccept ctxEmpty engT "x".data).err = some (openErr "t/x.html".data) ∧
    (parse [] evAccept ctxEmpty
        (parse [] evAccept ctxEmpty engT "x".data).eng "x".data).obs.reads =
      ["t/x.html".data] ∧
    (parse [("t/x.html".data, "fixed".data)] evAccept ctxEmpty
        (parse [] evAccept ctxEmpty engT "x".data).eng "x".data).err = none ∧
    (parse [("t/x.html".data, "fixed".data)] evAccept ctxEmpty
        (parse [] evAccept ctxEmpty engT "x".data).eng "x".data).tmpl.text =
      "fixed".data := by
  refine ⟨rfl, rfl, ?_, ?_⟩ <;> decide

/-- C6 amended: a failed compile stores nothing in the cache; every later
Render/Fetch of the same name re-attempts compilation and re-invokes the
content-source read, yielding the same error exactly while the source keeps
failing, and a fixed file is picked up on the next call without any
invalidation. -/
theorem C6_failed_compile_not_cached (fs : FS) (ev : Ev) (ctx : Ctx) (eng : Engine)
    (nm key : List Char)
    (hkey : key = TmplPath eng.templateDir (nm ++ extSuffix))
    (hmiss : lookupA key eng.cachedRelation = none)
    (hfile : lookupA key fs = none) :
    (parse fs ev ctx eng nm).eng = eng ∧
    (parse fs ev ctx eng nm).err = some (openErr key) ∧
    (parse fs ev ctx eng nm).obs.reads = [key] ∧
    (parse fs ev ctx (parse fs ev ctx eng nm).eng nm).obs.reads = [key] ∧
    (parse fs ev ctx (parse fs ev ctx eng nm).eng nm).err = some (openErr key) := by
  subst hkey
  have hr : RawContent fs (TmplPath eng.templateDir (nm ++ extSuffix)) =
      .error (openErr (TmplPath eng.templateDir (nm ++ extSuffix))) := by
    rw [RawContent, readFile, hfile]
  have hp : parse fs ev ctx eng nm =
      ⟨⟨CleanTemplateName (TmplPath eng.templateDir (nm ++ extSuffix)),
          openErr (TmplPath eng.templateDir (nm ++ extSuffix)), [],
          setFunc (freshRel (TmplPath eng.templateDir (nm ++ extSuffix))).tpl0.blocks
            ctx.funcs⟩,
        some (openErr (TmplPath eng.templateDir (nm ++ extSuffix))), eng,
        ⟨[TmplPath eng.templateDir (nm ++ extSuffix)], []⟩⟩ := by
    simp only [parse, hmiss, parseCompile, hr]
  refine ⟨?_, ?_, ?_, ?_, ?_⟩
  · rw [hp]
  · rw [hp]
  · rw [hp]
  · rw [hp, hp]
  · rw [hp, hp]

theorem C6_failed_compile_not_cached_witness :
    (parse [] evAccept ctxEmpty engT "x".data).eng = engT ∧
    (parse [] evAccept ctxEmpty
        (parse [] evAccept ctxEmpty engT "x".data).eng "x".data).obs.reads =
      ["t/x.html".data] := by
  have h := C6_failed_compile_not_cached [] evAccept ctxEmpty engT "x".data
    "t/x.html".data rfl rfl rfl
  exact ⟨h.1, h.2.2.2.1⟩

end StdRender

namespace StdRender

/-- C2 counterexample: with the descendant's collected body equal to child
(no Super marker) and the newly loaded ancestor's block body A Super B (which
does contain the marker), ParseExtend keeps the descendant's body child
unchanged; the marker in the ancestor's body is not substituted with the
descendant's content, so the claim's predicted effective content A child B is
not produced. -/
theorem C2_counterexample :
    lookupA "b".data (ParseExtend [] "t".data
      (Tag ("Block \"b\"".data) ++ "A".data ++ superMarker ++ "B".data ++
        Tag "/Block".data)
      [("b".data, "child".data)] [] []).extcs = some "child".data ∧
    ("child".data : List Char) ≠ "A".data ++ "child".data ++ "B".data := by
  constructor
  · decide
  · decide

/-- C2 amended: it is the descendant's collected block body that is tested
for the Super marker; when it contains the marker, the resolver substitutes
the first marker occurrence in the descendant's body with the ancestor's own
include-expanded inner content, and the result becomes the effective block
definition. -/
theorem C2_super_in_descendant (fs : FS) (dir P X Y bn mP passO : List Char)
    (extcs subcs : Pool)
    (hself : findSelf P = [])
    (hblocks : findBlocks P = [(mP, bn, Y)])
    (hlk : lookupA bn extcs = some X)
    (hsuper : containsLit superMarker X = true)
    (hYinc : findCalls "Include".data Y = []) :
    lookupA bn (ParseExtend fs dir P extcs passO subcs).extcs =
      some (replaceFirst superMarker Y X) := by
  have hstep : ParseExtend fs dir P extcs passO subcs =
      ⟨(if (matchExtendTag P).isSome then
          replaceFirst mP (blockWrapTag bn (replaceFirst superMarker Y X)) P
        else replaceFirst mP
          (blockRef (bn ++ []) (if passO.isEmpty then ['.'] else passO)) P),
        matchExtendTag P,
        pruneByRec (setK extcs bn (replaceFirst superMarker Y X)) (setK [] bn 0),
        subcs, []⟩ := by
    simp only [ParseExtend, replaceSelf_noop _ _ hself, hblocks, ParseExtendAux,
      hlk, lookupA, hsuper, ContainsSubTpl_noop _ _ _ _ hYinc, if_pos rfl,
      List.isEmpty_nil, if_true, List.append_nil, List.nil_append]
  rw [hstep]
  exact lookupA_filter _ _ _ _ (lookupA_setK_self extcs "b".data |> fun _ => by
    exact lookupA_setK_self extcs bn (replaceFirst superMarker Y X)) (by
    simp [lookupA, setK])

theorem C2_super_in_descendant_witness :
    lookupA "b".data (ParseExtend [] "t".data
      (Tag ("Block \"b\"".data) ++ "Y0".data ++ Tag "/Block".data)
      [("b".data, "X1".data ++ superMarker ++ "X2".data ++ superMarker)] [] []).extcs =
      some (replaceFirst superMarker "Y0".data
        ("X1".data ++ superMarker ++ "X2".data ++ superMarker)) := by
  exact C2_super_in_descendant [] "t".data
    (Tag ("Block \"b\"".data) ++ "Y0".data ++ Tag "/Block".data)
    ("X1".data ++ superMarker ++ "X2".data ++ superMarker) "Y0".data "b".data
    (Tag ("Block \"b\"".data) ++ "Y0".data ++ Tag "/Block".data) []
    [("b".data, "X1".data ++ superMarker ++ "X2".data ++ superMarker)] []
    (by decide) (by decide) (by decide) (by decide) (by decide)

end StdRender

namespace StdRender

/-- Every successful parse leaves (or finds) a standalone cache entry for the
resolved key whose tree is the returned template; the bound function map is
the setFunc injection over that entry's block set (merged over the previous
tree's map on a cache hit). -/
theorem parse_success_entry (fs : FS) (ev : Ev) (ctx : Ctx) (eng : Engine)
    (nm : List Char) :
    (parse fs ev ctx eng nm).err = none →
    ∃ rel', lookupA (TmplPath eng.templateDir (nm ++ extSuffix))
        (parse fs ev ctx eng nm).eng.cachedRelation = some rel' ∧
      rel'.tpl0.template = some (parse fs ev ctx eng nm).tmpl ∧
      ((parse fs ev ctx eng nm).tmpl.funcMap = setFunc rel'.tpl0.blocks ctx.funcs ∨
        ∃ base, (parse fs ev ctx eng nm).tmpl.funcMap =
          mergeFM base (setFunc rel'.tpl0.blocks ctx.funcs)) := by
  intro h
  unfold parse parseCompile at h ⊢
  dsimp only [] at h ⊢
  repeat' split at h
  all_goals simp_all [lookupA_setK_self]
  all_goals exact Or.inr ⟨_, rfl⟩

/-- parse never changes the template directory of the engine. -/
theorem parse_eng_templateDir (fs : FS) (ev : Ev) (ctx : Ctx) (eng : Engine)
    (nm : List Char) :
    (parse fs ev ctx eng nm).eng.templateDir = eng.templateDir := by
  unfold parse parseCompile
  dsimp only []
  repeat' split
  all_goals simp

theorem keysOf_setK_nodup {α : Type} (m : AMap α) (k : List Char) (v : α)
    (h : (keysOf m).Nodup) : (keysOf (setK m k v)).Nodup := by
  induction m with
  | nil => simp [setK, keysOf]
  | cons hd tl ih =>
    cases hd with
    | mk k0 v0 =>
      rw [keysOf] at h
      rcases List.nodup_cons.1 h with ⟨hk0, htl⟩
      by_cases h0 : k0 = k
      · subst h0
        simpa [setK, keysOf] using h
      · rw [setK, if_neg h0, keysOf, List.nodup_cons]
        refine ⟨?_, ih htl⟩
        intro hmem
        rcases (mem_keysOf_setK tl k v k0).1 hmem with h1 | h2
        · exact h0 h1
        · exact hk0 h2

theorem lookupA_mergeFM (extra : FMap) : ∀ (base : FMap) (k : List Char),
    (keysOf extra).Nodup →
    lookupA k (mergeFM base extra) =
      match lookupA k extra with
      | some v => some v
      | none => lookupA k base := by
  induction extra with
  | nil => intro base k _; rfl
  | cons hd rest ih =>
    intro base k hnd
    cases hd with
    | mk k0 v0 =>
      rw [keysOf] at hnd
      rcases List.nodup_cons.1 hnd with ⟨hk0, hrest⟩
      rw [mergeFM]
      rw [ih (setK base k0 v0) k hrest]
      by_cases hk : k0 = k
      · subst hk
        have hnone : lookupA k0 rest = none :=
          (lookupA_eq_none_iff rest k0).2 hk0
        rw [hnone, lookupA, if_pos rfl, lookupA_setK_self]
      · rw [lookupA, if_neg hk]
        cases hr : lookupA k rest with
        | some v => rfl
        | none => rw [lookupA_setK_ne base k0 k v0 (fun hh => hk hh.symm)]

theorem hasBlockFn_iff (bl : List (List Char)) (ns : List (List Char)) :
    hasBlockFn bl ns = true ↔ ∀ n ∈ ns, n ∈ bl := by
  induction ns with
  | nil => simp [hasBlockFn]
  | cons b bs ih =>
    rw [hasBlockFn]
    by_cases hb : b ∈ bl
    · simp [hb, ih]
    · simp [hb]

theorem hasAnyBlockFn_iff (bl : List (List Char)) (ns : List (List Char)) :
    hasAnyBlockFn bl ns = true ↔ ∃ n ∈ ns, n ∈ bl := by
  induction ns with
  | nil => simp [hasAnyBlockFn]
  | cons b bs ih =>
    rw [hasAnyBlockFn]
    by_cases hb : b ∈ bl
    · simp [hb]
    · simp [hb, ih]

end StdRender

namespace StdRender

/-- Result of the cache-hit branch of parse for a key, entry and cached tree. -/
def hitResult (ctx : Ctx) (eng : Engine) (key : List Char) (rel : CcRel)
    (tm : Template) : ParseOut :=
  let fm := setFunc rel.tpl0.blocks ctx.funcs
  let tm1 := { tm with funcMap := mergeFM tm.funcMap fm }
  let rel1 := { rel with tpl0 := { rel.tpl0 with template := some tm1 } }
  ⟨tm1, none, { eng with cachedRelation := setK eng.cachedRelation key rel1 }, ⟨[], []⟩⟩

/-- Evaluation of the cache-hit branch of parse. -/
theorem parse_hit (fs : FS) (ev : Ev) (ctx : Ctx) (eng : Engine) (nm : List Char)
    (rel : CcRel) (tm : Template)
    (hrel : lookupA (TmplPath eng.templateDir (nm ++ extSuffix))
      eng.cachedRelation = some rel)
    (htm : rel.tpl0.template = some tm) :
    parse fs ev ctx eng nm =
      hitResult ctx eng (TmplPath eng.templateDir (nm ++ extSuffix)) rel tm := by
  simp only [parse, hrel, htm, hitResult]

/-- C9: a standalone cache hit short-circuits the pipeline: the second parse
of the same name performs no content-source read and no callback invocation,
returns the cached tree (same text and sub-definitions) with no error, and
only re-binds the caller's current function map onto it (every non-helper
binding of the caller's map is visible on the returned template). -/
theorem C9_cache_hit_short_circuit (fs fs2 : FS) (ev ev2 : Ev) (ctx ctx2 : Ctx)
    (eng : Engine) (nm : List Char)
    (hok : (parse fs ev ctx eng nm).err = none)
    (hnd : (keysOf ctx2.funcs).Nodup) :
    (parse fs2 ev2 ctx2 (parse fs ev ctx eng nm).eng nm).obs.reads = [] ∧
    (parse fs2 ev2 ctx2 (parse fs ev ctx eng nm).eng nm).obs.calls = [] ∧
    (parse fs2 ev2 ctx2 (parse fs ev ctx eng nm).eng nm).err = none ∧
    (parse fs2 ev2 ctx2 (parse fs ev ctx eng nm).eng nm).tmpl.text =
      (parse fs ev ctx eng nm).tmpl.text ∧
    (parse fs2 ev2 ctx2 (parse fs ev ctx eng nm).eng nm).tmpl.subs =
      (parse fs ev ctx eng nm).tmpl.subs ∧
    (∀ k v, lookupA k ctx2.funcs = some v → k ≠ "hasBlock".data →
      k ≠ "hasAnyBlock".data →
      lookupA k (parse fs2 ev2 ctx2 (parse fs ev ctx eng nm).eng nm).tmpl.funcMap =
        some v) := by
  obtain ⟨rel', hrel, htm, _⟩ := parse_success_entry fs ev ctx eng nm hok
  have hdir := parse_eng_templateDir fs ev ctx eng nm
  have hrel' : lookupA
      (TmplPath (parse fs ev ctx eng nm).eng.templateDir (nm ++ extSuffix))
      (parse fs ev ctx eng nm).eng.cachedRelation = some rel' := by
    rw [hdir]
    exact hrel
  have hndx : (keysOf (setFunc rel'.tpl0.blocks ctx2.funcs)).Nodup := by
    rw [setFunc]
    exact keysOf_setK_nodup _ _ _ (keysOf_setK_nodup _ _ _ hnd)
  rw [parse_hit fs2 ev2 ctx2 _ nm rel' (parse fs ev ctx eng nm).tmpl hrel' htm]
  refine ⟨rfl, rfl, rfl, rfl, rfl, ?_⟩
  intro k v hv hk1 hk2
  show lookupA k (mergeFM (parse fs ev ctx eng nm).tmpl.funcMap
    (setFunc rel'.tpl0.blocks ctx2.funcs)) = some v
  rw [lookupA_mergeFM _ _ _ hndx, setFunc,
    lookupA_setK_ne _ _ _ _ hk2, lookupA_setK_ne _ _ _ _ hk1, hv]

unseal ContainsSubTplAux in
theorem C9_cache_hit_short_circuit_witness :
    (parse [] evAccept ctxEmpty
      (parse [("t/a.html".data, "hello".data)] evAccept ctxEmpty engT "a".data).eng
      "a".data).obs.reads = [] ∧
    (parse [] evAccept ctxEmpty
      (parse [("t/a.html".data, "hello".data)] evAccept ctxEmpty engT "a".data).eng
      "a".data).tmpl.text =
      (parse [("t/a.html".data, "hello".data)] evAccept ctxEmpty engT "a".data).tmpl.text := by
  have h := C9_cache_hit_short_circuit [("t/a.html".data, "hello".data)] []
    evAccept evAccept ctxEmpty ctxEmpty engT "a".data (by decide) (by decide)
  exact ⟨h.1, h.2.2.2.1⟩

end StdRender

namespace StdRender

theorem lookupA_setFunc_hasBlock (bl : List (List Char)) (f : FMap) :
    lookupA "hasBlock".data (setFunc bl f) = some (.varPred (hasBlockFn bl)) := by
  rw [setFunc, lookupA_setK_ne _ _ _ _ (by decide), lookupA_setK_self]

theorem lookupA_setFunc_hasAnyBlock (bl : List (List Char)) (f : FMap) :
    lookupA "hasAnyBlock".data (setFunc bl f) =
      some (.varPred (hasAnyBlockFn bl)) := by
  rw [setFunc, lookupA_setK_self]

theorem lookupA_mergeFM_setFunc (base : FMap) (bl : List (List Char)) (f : FMap)
    (hnd : (keysOf f).Nodup) :
    lookupA "hasBlock".data (mergeFM base (setFunc bl f)) =
        some (.varPred (hasBlockFn bl)) ∧
      lookupA "hasAnyBlock".data (mergeFM base (setFunc bl f)) =
        some (.varPred (hasAnyBlockFn bl)) := by
  have hndx : (keysOf (setFunc bl f)).Nodup := by
    rw [setFunc]
    exact keysOf_setK_nodup _ _ _ (keysOf_setK_nodup _ _ _ hnd)
  constructor
  · rw [lookupA_mergeFM _ _ _ hndx, lookupA_setFunc_hasBlock]
  · rw [lookupA_mergeFM _ _ _ hndx, lookupA_setFunc_hasAnyBlock]

/-- C10: parse always binds the two helpers hasBlock and hasAnyBlock into the
template's function map, on the cache-hit path against the cached entry's
block set and on a successful compile against the stored entry's block set;
hasBlock of a list of names is true exactly when every listed name is a
defined layout block of that entry and hasAnyBlock exactly when at least one
is. -/
theorem C10_block_helpers (fsA : FS) (evA : Ev) (ctxA : Ctx) (engA : Engine)
    (nmA : List Char) (relA : CcRel) (tmA : Template)
    (hrelA : lookupA (TmplPath engA.templateDir (nmA ++ extSuffix))
      engA.cachedRelation = some relA)
    (htmA : relA.tpl0.template = some tmA)
    (hndA : (keysOf ctxA.funcs).Nodup)
    (fsB : FS) (evB : Ev) (ctxB : Ctx) (engB : Engine) (nmB : List Char)
    (hokB : (parse fsB evB ctxB engB nmB).err = none)
    (hndB : (keysOf ctxB.funcs).Nodup) :
    (∃ f g, lookupA "hasBlock".data (parse fsA evA ctxA engA nmA).tmpl.funcMap =
        some (.varPred f) ∧
      lookupA "hasAnyBlock".data (parse fsA evA ctxA engA nmA).tmpl.funcMap =
        some (.varPred g) ∧
      (∀ ns, f ns = true ↔ ∀ n ∈ ns, n ∈ relA.tpl0.blocks) ∧
      (∀ ns, g ns = true ↔ ∃ n ∈ ns, n ∈ relA.tpl0.blocks)) ∧
    (∃ rel' f g, lookupA (TmplPath engB.templateDir (nmB ++ extSuffix))
        (parse fsB evB ctxB engB nmB).eng.cachedRelation = some rel' ∧
      lookupA "hasBlock".data (parse fsB evB ctxB engB nmB).tmpl.funcMap =
        some (.varPred f) ∧
      lookupA "hasAnyBlock".data (parse fsB evB ctxB engB nmB).tmpl.funcMap =
        some (.varPred g) ∧
      (∀ ns, f ns = true ↔ ∀ n ∈ ns, n ∈ rel'.tpl0.blocks) ∧
      (∀ ns, g ns = true ↔ ∃ n ∈ ns, n ∈ rel'.tpl0.blocks)) := by
  constructor
  · rw [parse_hit fsA evA ctxA engA nmA relA tmA hrelA htmA]
    obtain ⟨h1, h2⟩ := lookupA_mergeFM_setFunc tmA.funcMap relA.tpl0.blocks
      ctxA.funcs hndA
    refine ⟨hasBlockFn relA.tpl0.blocks, hasAnyBlockFn relA.tpl0.blocks,
      h1, h2, ?_, ?_⟩
    · intro ns; exact hasBlockFn_iff _ _
    · intro ns; exact hasAnyBlockFn_iff _ _
  · obtain ⟨rel', hrel, _, hfm⟩ := parse_success_entry fsB evB ctxB engB nmB hokB
    refine ⟨rel', hasBlockFn rel'.tpl0.blocks, hasAnyBlockFn rel'.tpl0.blocks,
      hrel, ?_, ?_, fun ns => hasBlockFn_iff _ _, fun ns => hasAnyBlockFn_iff _ _⟩
    · rcases hfm with hfm | ⟨base, hfm⟩
      · rw [hfm, lookupA_setFunc_hasBlock]
      · rw [hfm]
        exact (lookupA_mergeFM_setFunc base rel'.tpl0.blocks ctxB.funcs hndB).1
    · rcases hfm with hfm | ⟨base, hfm⟩
      · rw [hfm, lookupA_setFunc_hasAnyBlock]
      · rw [hfm]
        exact (lookupA_mergeFM_setFunc base rel'.tpl0.blocks ctxB.funcs hndB).2

unseal ContainsSubTplAux in
theorem C10_block_helpers_witness :
    ∃ f g, lookupA "hasBlock".data
        (parse [] evAccept ctxEmpty
          ⟨"t".data, [("t/w.html".data,
            ⟨["t/w.html".data], ⟨some ⟨"t/w.html".data, "W".data, [], []⟩,
              ["blk".data]⟩, ⟨none, []⟩⟩)]⟩ "w".data).tmpl.funcMap =
      some (.varPred f) ∧
    lookupA "hasAnyBlock".data
        (parse [] evAccept ctxEmpty
          ⟨"t".data, [("t/w.html".data,
            ⟨["t/w.html".data], ⟨some ⟨"t/w.html".data, "W".data, [], []⟩,
              ["blk".data]⟩, ⟨none, []⟩⟩)]⟩ "w".data).tmpl.funcMap =
      some (.varPred g) ∧
    (∀ ns, f ns = true ↔ ∀ n ∈ ns, n ∈ (["blk".data] : List (List Char))) := by
  have h := C10_block_helpers [] evAccept ctxEmpty
    ⟨"t".data, [("t/w.html".data,
      ⟨["t/w.html".data], ⟨some ⟨"t/w.html".data, "W".data, [], []⟩,
        ["blk".data]⟩, ⟨none, []⟩⟩)]⟩ "w".data
    ⟨["t/w.html".data], ⟨some ⟨"t/w.html".data, "W".data, [], []⟩,
      ["blk".data]⟩, ⟨none, []⟩⟩ ⟨"t/w.html".data, "W".data, [], []⟩
    rfl rfl (by decide)
    [("t/a.html".data, "hello".data)] evAccept ctxEmpty engT "a".data
    (by decide) (by decide)
  obtain ⟨⟨f, g, h1, h2, h3, h4⟩, _⟩ := h
  exact ⟨f, g, h1, h2, h3⟩

end StdRender

namespace StdRender


/-- Invariant of one top-level parse's clip memoisation: the invocation log
has no duplicate keys and every logged key is stored in the clip map. -/
def CallsInv (clips : AMap (List Char)) (calls : List (List Char)) : Prop :=
  calls.Nodup ∧ ∀ k ∈ calls, k ∈ keysOf clips

theorem CallsInv_empty : CallsInv [] [] := ⟨List.nodup_nil, by simp⟩

theorem cfrAux_inv (reg : Reg) (orig : List Char) :
    ∀ (ms : List (List Char × List Char × List Char)) (content : List Char)
      (clips : AMap (List Char)) (calls : List (List Char)),
    CallsInv clips calls →
    CallsInv (ContainsFunctionResultAux reg orig ms content clips).2.1
      (calls ++ (ContainsFunctionResultAux reg orig ms content clips).2.2) := by
  intro ms
  induction ms with
  | nil =>
    intro content clips calls h
    simpa [ContainsFunctionResultAux] using h
  | cons hd rest ih =>
    obtain ⟨matched, fn, arg⟩ := hd
    intro content clips calls h
    rw [ContainsFunctionResultAux]
    cases hlk : lookupA (clipKey fn arg) clips with
    | some v =>
      dsimp only [hlk]
      have := ih (replaceAll matched ((lookupA (clipKey fn arg) clips).getD []) content)
        clips calls h
      simpa [hlk] using this
    | none =>
      have hgrow : ∀ (val : List Char) (k : List Char), k ∈ keysOf clips →
          k ∈ keysOf (setK clips (clipKey fn arg) val) := by
        intro val k hk
        exact (mem_keysOf_setK clips (clipKey fn arg) val k).2 (Or.inr hk)
      have hnotin : clipKey fn arg ∉ calls := by
        intro hmem
        exact ((lookupA_eq_none_iff clips (clipKey fn arg)).1 hlk) (h.2 _ hmem)
      cases hreg : lookupA fn reg with
      | some f =>
        dsimp only [hlk, hreg]
        have hinv1 : CallsInv (setK clips (clipKey fn arg) (f orig arg))
            (calls ++ [clipKey fn arg]) := by
          constructor
          · rw [List.nodup_append]
            exact ⟨h.1, List.nodup_singleton _, by
              intro a ha hb
              rw [List.mem_singleton] at hb
              subst hb
              exact hnotin ha⟩
          · intro k hk
            rcases List.mem_append.1 hk with hk | hk
            · exact hgrow _ k (h.2 k hk)
            · rw [List.mem_singleton] at hk
              subst hk
              exact (mem_keysOf_setK _ _ _ _).2 (Or.inl rfl)
        have := ih (replaceAll matched
            ((lookupA (clipKey fn arg) (setK clips (clipKey fn arg) (f orig arg))).getD [])
            content)
          (setK clips (clipKey fn arg) (f orig arg))
          (calls ++ [clipKey fn arg]) hinv1
        simpa [List.append_assoc] using this
      | none =>
        dsimp only [hlk, hreg]
        have hinv1 : CallsInv (setK clips (clipKey fn arg) []) calls := by
          refine ⟨h.1, ?_⟩
          intro k hk
          exact hgrow _ k (h.2 k hk)
        have := ih (replaceAll matched
            ((lookupA (clipKey fn arg) (setK clips (clipKey fn arg) [])).getD [])
            content)
          (setK clips (clipKey fn arg) []) calls hinv1
        simpa using this

theorem cfr_inv (reg : Reg) (orig content : List Char) (clips : AMap (List Char))
    (calls : List (List Char)) (h : CallsInv clips calls) :
    CallsInv (ContainsFunctionResult reg orig content clips).2.1
      (calls ++ (ContainsFunctionResult reg orig content clips).2.2) := by
  rw [ContainsFunctionResult]
  exact cfrAux_inv reg orig _ content clips calls h




/-- State reached by the sub-template definition loop, on either exit. -/
def sfOut : Except (List Char × SubFoldState) SubFoldState → SubFoldState
  | .ok st => st
  | .error es => es.2

/-- State reached by the block definition loop, on either exit. -/
def efOut : Except (List Char × ExtFoldState) ExtFoldState → ExtFoldState
  | .ok st => st
  | .error es => es.2

theorem subcsFold_callsInv (ev : Ev) (reg : Reg) (orig ck mn mt : List Char) :
    ∀ (entries : List (List Char × List Char)) (st : SubFoldState),
    CallsInv st.clips st.calls →
    CallsInv (sfOut (subcsFold ev reg orig ck mn mt entries st)).clips
      (sfOut (subcsFold ev reg orig ck mn mt entries st)).calls := by
  intro entries
  induction entries with
  | nil => intro st h; simpa [subcsFold, sfOut] using h
  | cons e rest ih =>
    obtain ⟨name, subc⟩ := e
    intro st h
    rw [subcsFold]
    cases hc : lookupA name st.cache with
    | some v =>
      dsimp only []
      cases hvt : v.tpl1.template with
      | some childT =>
        dsimp only []
        exact ih _ h
      | none =>
        dsimp only []
        by_cases hn : name = mn
        · simp only [if_pos hn]
          exact ih _ h
        · simp only [if_neg hn]
          have hcf := cfr_inv reg orig subc st.clips st.calls h
          cases hev : ev (defineWrap name (ContainsFunctionResult reg orig subc st.clips).1) with
          | some e =>
            dsimp only [sfOut]
            exact hcf
          | none =>
            dsimp only []
            exact ih _ hcf
    | none =>
      dsimp only []
      by_cases hn : name = mn
      · simp only [if_pos hn]
        exact ih _ h
      · simp only [if_neg hn]
        have hcf := cfr_inv reg orig subc st.clips st.calls h
        cases hev : ev (defineWrap name (ContainsFunctionResult reg orig subc st.clips).1) with
        | some e =>
          dsimp only [sfOut]
          exact hcf
        | none =>
          dsimp only []
          exact ih _ hcf

theorem extcsFold_callsInv (ev : Ev) (reg : Reg) (orig mn : List Char) :
    ∀ (entries : List (List Char × List Char)) (st : ExtFoldState),
    CallsInv st.clips st.calls →
    CallsInv (efOut (extcsFold ev reg orig mn entries st)).clips
      (efOut (extcsFold ev reg orig mn entries st)).calls := by
  intro entries
  induction entries with
  | nil => intro st h; simpa [extcsFold, efOut] using h
  | cons e rest ih =>
    obtain ⟨name, extc⟩ := e
    intro st h
    rw [extcsFold]
    by_cases hn : name = mn
    · simp only [if_pos hn]
      exact ih _ h
    · simp only [if_neg hn]
      have hcf := cfr_inv reg orig extc st.clips st.calls h
      cases hev : ev (defineWrap name (ContainsFunctionResult reg orig extc st.clips).1) with
      | some e =>
        dsimp only [efOut]
        exact hcf
      | none =>
        dsimp only []
        exact ih _ hcf

theorem subcsFold_callsInv_err (ev : Ev) (reg : Reg) (orig ck mn mt : List Char)
    (entries : List (List Char × List Char)) (st : SubFoldState)
    (es : List Char × SubFoldState)
    (h : subcsFold ev reg orig ck mn mt entries st = .error es)
    (hinv : CallsInv st.clips st.calls) : CallsInv es.2.clips es.2.calls := by
  have h2 := subcsFold_callsInv ev reg orig ck mn mt entries st hinv
  rw [h] at h2
  exact h2

theorem subcsFold_callsInv_ok (ev : Ev) (reg : Reg) (orig ck mn mt : List Char)
    (entries : List (List Char × List Char)) (st st' : SubFoldState)
    (h : subcsFold ev reg orig ck mn mt entries st = .ok st')
    (hinv : CallsInv st.clips st.calls) : CallsInv st'.clips st'.calls := by
  have h2 := subcsFold_callsInv ev reg orig ck mn mt entries st hinv
  rw [h] at h2
  exact h2

theorem extcsFold_callsInv_err (ev : Ev) (reg : Reg) (orig mn : List Char)
    (entries : List (List Char × List Char)) (st : ExtFoldState)
    (es : List Char × ExtFoldState)
    (h : extcsFold ev reg orig mn entries st = .error es)
    (hinv : CallsInv st.clips st.calls) : CallsInv es.2.clips es.2.calls := by
  have h2 := extcsFold_callsInv ev reg orig mn entries st hinv
  rw [h] at h2
  exact h2

theorem extcsFold_callsInv_ok (ev : Ev) (reg : Reg) (orig mn : List Char)
    (entries : List (List Char × List Char)) (st : ExtFoldState)
    (st' : ExtFoldState)
    (h : extcsFold ev reg orig mn entries st = .ok st')
    (hinv : CallsInv st.clips st.calls) : CallsInv st'.clips st'.calls := by
  have h2 := extcsFold_callsInv ev reg orig mn entries st hinv
  rw [h] at h2
  exact h2

theorem parseCompile_calls_nodup (fs : FS) (ev : Ev) (ctx : Ctx) (eng : Engine)
    (rel0 : CcRel) (key orig : List Char) :
    (parseCompile fs ev ctx eng rel0 key orig).obs.calls.Nodup := by
  unfold parseCompile
  dsimp only []
  split
  next e heq => simp
  next content0 heq =>
    split
    next e2 heq2 => simp
    next contentL heq2 =>
      have hcf := cfr_inv ctx.reg orig
        (ContainsSubTpl fs eng.templateDir contentL
          (extendLoop fs eng.templateDir key 10
            (replaceSelf (fun _ => []) content0) (matchExtendTag content0) [] []
            eng.cachedRelation).subcs).text [] [] CallsInv_empty
      rw [List.nil_append] at hcf
      split
      next pe heq3 => exact hcf.1
      next heq3 =>
        split
        next es heq4 =>
          exact (subcsFold_callsInv_err ev ctx.reg orig key (CleanTemplateName key)
            _ _ _ es heq4 hcf).1
        next st1 heq4 =>
          have h2 := subcsFold_callsInv_ok ev ctx.reg orig key (CleanTemplateName key)
            _ _ _ st1 heq4 hcf
          split
          next es2 heq5 =>
            exact (extcsFold_callsInv_err ev ctx.reg orig (CleanTemplateName key)
              _ _ es2 heq5 h2).1
          next st2 heq5 =>
            exact (extcsFold_callsInv_ok ev ctx.reg orig (CleanTemplateName key)
              _ _ st2 heq5 h2).1

theorem parse_calls_nodup (fs : FS) (ev : Ev) (ctx : Ctx) (eng : Engine)
    (nm : List Char) : (parse fs ev ctx eng nm).obs.calls.Nodup := by
  unfold parse
  dsimp only []
  split
  · split
    · simp
    · exact parseCompile_calls_nodup fs ev ctx eng _ _ nm
  · exact parseCompile_calls_nodup fs ev ctx eng _ _ nm



theorem replaceAllF_no_occ (old new : List Char) :
    ∀ (n : Nat) (s : List Char), splitAtLit old s = none →
    replaceAllF old new n s = s := by
  intro n
  induction n with
  | zero => intro s _; rfl
  | succ n ih =>
    intro s hs
    cases s with
    | nil => rfl
    | cons c cs =>
      rw [splitAtLit] at hs
      rw [replaceAllF]
      cases hst : stripLit old (c :: cs) with
      | some r =>
        rw [hst] at hs
        cases hs
      | none =>
        rw [hst] at hs
        cases h2 : splitAtLit old cs with
        | some ba =>
          rw [h2] at hs
          cases hs
        | none => rw [ih cs h2]

/-- strings.Replace is the identity when the pattern does not occur. -/
theorem replaceAll_no_occ (old new s : List Char)
    (h : containsLit old s = false) : replaceAll old new s = s := by
  cases old with
  | nil =>
    exfalso
    rw [containsLit] at h
    cases s with
    | nil => rw [splitAtLit, stripLit] at h; cases h
    | cons c cs => rw [splitAtLit, stripLit] at h; cases h
  | cons o os =>
    cases hsp : splitAtLit (o :: os) s with
    | some ba =>
      rw [containsLit, hsp] at h
      cases h
    | none =>
      rw [replaceAll]
      simp only [List.isEmpty_cons, if_neg]
      exact replaceAllF_no_occ (o :: os) new s.length s hsp

/-- C8: within one top-level parse the Function clip resolver invokes the
registered callback at most once per distinct name-colon-argument key (the
invocation log of parse never repeats a key, across the main document, the
sub-template bodies and the block bodies, which share one clip map); a
directive with no registered callback is replaced by the empty string with no
invocation; and a directive occurring several times with the same key is
resolved by a single invocation whose memoised result replaces every
occurrence of the directive text. -/
theorem C8_function_memoization (fsA : FS) (evA : Ev) (ctxA : Ctx) (engA : Engine)
    (nmA : List Char)
    (regB : Reg) (origB contentB mB fnB argB : List Char) (clipsB : AMap (List Char))
    (hfindB : findCalls "Function".data contentB = [(mB, fnB, argB)])
    (hregB : lookupA fnB regB = none)
    (hclipB : lookupA (clipKey fnB argB) clipsB = none)
    (regC : Reg) (origC contentC mC fnC argC : List Char) (clipsC : AMap (List Char))
    (f : List Char → List Char → List Char)
    (hfindC : findCalls "Function".data contentC = [(mC, fnC, argC), (mC, fnC, argC)])
    (hregC : lookupA fnC regC = some f)
    (hclipC : lookupA (clipKey fnC argC) clipsC = none)
    (hnoC : containsLit mC (replaceAll mC (f origC argC) contentC) = false) :
    (parse fsA evA ctxA engA nmA).obs.calls.Nodup ∧
    ContainsFunctionResult regB origB contentB clipsB =
      (replaceAll mB [] contentB, setK clipsB (clipKey fnB argB) [], []) ∧
    ContainsFunctionResult regC origC contentC clipsC =
      (replaceAll mC (f origC argC) contentC,
        setK clipsC (clipKey fnC argC) (f origC argC), [clipKey fnC argC]) := by
  refine ⟨parse_calls_nodup fsA evA ctxA engA nmA, ?_, ?_⟩
  · rw [ContainsFunctionResult, hfindB, ContainsFunctionResultAux]
    try dsimp only []
    rw [hclipB]
    try dsimp only []
    rw [hregB]
    try dsimp only []
    rw [lookupA_setK_self]
    rw [ContainsFunctionResultAux]
    simp
  · rw [ContainsFunctionResult, hfindC, ContainsFunctionResultAux]
    try dsimp only []
    rw [hclipC]
    try dsimp only []
    rw [hregC]
    try dsimp only []
    rw [lookupA_setK_self]
    rw [ContainsFunctionResultAux]
    try dsimp only []
    rw [lookupA_setK_self]
    try dsimp only []
    rw [lookupA_setK_self]
    rw [ContainsFunctionResultAux]
    try dsimp only [Option.getD]
    rw [replaceAll_no_occ _ _ _ hnoC]
    simp

theorem C8_function_memoization_witness :
    (parse [] evAccept ctxEmpty engT "x".data).obs.calls.Nodup ∧
    ContainsFunctionResult [] "o".data
      (Tag ("Function \"g\" .".data)) [] =
      (replaceAll (Tag ("Function \"g\" .".data)) [] (Tag ("Function \"g\" .".data)),
        setK [] (clipKey "g".data ".".data) [], []) := by
  have h := C8_function_memoization [] evAccept ctxEmpty engT "x".data
    [] "o".data (Tag ("Function \"g\" .".data)) (Tag ("Function \"g\" .".data))
    "g".data ".".data [] (by decide) rfl rfl
    [("f".data, fun _ _ => "R".data)] "o".data
    (Tag ("Function \"f\" .".data) ++ Tag ("Function \"f\" .".data))
    (Tag ("Function \"f\" .".data)) "f".data ".".data []
    (fun _ _ => "R".data)
    (by decide) rfl rfl (by decide)
  exact ⟨h.1, h.2.1⟩

end StdRender

namespace StdRender


theorem RawContent_error_not_mem {fs : FS} {p e : List Char}
    (h : RawContent fs p = .error e) : p ∉ keysOf fs := by
  rw [RawContent, readFile] at h
  cases hl : lookupA p fs with
  | some b => rw [hl] at h; cases h
  | none => exact (lookupA_eq_none_iff fs p).1 hl

theorem cstAux_err (fs : FS) (dir matched file0 pass0 content e : List Char)
    (rest : List (List Char × List Char × List Char)) (pool : Pool)
    (hmem : lookupA (TmplPath dir (file0 ++ extSuffix)) pool = none)
    (hread : RawContent fs (TmplPath dir (file0 ++ extSuffix)) = .error e) :
    (ContainsSubTplAux fs dir ((matched, file0, pass0) :: rest) content pool).val =
      ⟨"RenderTemplate ".data ++ TmplPath dir (file0 ++ extSuffix) ++
          " read err: ".data ++ e,
        pool, [TmplPath dir (file0 ++ extSuffix)]⟩ := by
  rw [ContainsSubTplAux, dif_pos hmem]
  split
  next e2 heq =>
    rw [hread] at heq
    injection heq with heq2
    subst heq2
    rfl
  next b heq =>
    rw [hread] at heq
    cases heq

theorem cstAux_ok (fs : FS) (dir matched file0 pass0 content b : List Char)
    (rest : List (List Char × List Char × List Char)) (pool : Pool)
    (hmem : lookupA (TmplPath dir (file0 ++ extSuffix)) pool = none)
    (hread : RawContent fs (TmplPath dir (file0 ++ extSuffix)) = .ok b) :
    (ContainsSubTplAux fs dir ((matched, file0, pass0) :: rest) content pool).val =
      ⟨(ContainsSubTplAux fs dir rest
          (replaceAll matched (subTplRef (TmplPath dir (file0 ++ extSuffix)) pass0) content)
          (setK (ContainsSubTplAux fs dir (findCalls "Include".data b) b
              (setK pool (TmplPath dir (file0 ++ extSuffix)) [])).val.pool
            (TmplPath dir (file0 ++ extSuffix))
            (ContainsSubTplAux fs dir (findCalls "Include".data b) b
              (setK pool (TmplPath dir (file0 ++ extSuffix)) [])).val.text)).val.text,
        (ContainsSubTplAux fs dir rest
          (replaceAll matched (subTplRef (TmplPath dir (file0 ++ extSuffix)) pass0) content)
          (setK (ContainsSubTplAux fs dir (findCalls "Include".data b) b
              (setK pool (TmplPath dir (file0 ++ extSuffix)) [])).val.pool
            (TmplPath dir (file0 ++ extSuffix))
            (ContainsSubTplAux fs dir (findCalls "Include".data b) b
              (setK pool (TmplPath dir (file0 ++ extSuffix)) [])).val.text)).val.pool,
        TmplPath dir (file0 ++ extSuffix) ::
          ((ContainsSubTplAux fs dir (findCalls "Include".data b) b
              (setK pool (TmplPath dir (file0 ++ extSuffix)) [])).val.reads ++
            (ContainsSubTplAux fs dir rest
              (replaceAll matched (subTplRef (TmplPath dir (file0 ++ extSuffix)) pass0) content)
              (setK (ContainsSubTplAux fs dir (findCalls "Include".data b) b
                  (setK pool (TmplPath dir (file0 ++ extSuffix)) [])).val.pool
                (TmplPath dir (file0 ++ extSuffix))
                (ContainsSubTplAux fs dir (findCalls "Include".data b) b
                  (setK pool (TmplPath dir (file0 ++ extSuffix)) [])).val.text)).val.reads)⟩ := by
  rw [ContainsSubTplAux, dif_pos hmem]
  split
  next e2 heq =>
    rw [hread] at heq
    cases heq
  next b2 heq =>
    rw [hread] at heq
    injection heq with heq2
    subst heq2
    rfl

theorem cstAux_present (fs : FS) (dir matched file0 pass0 content : List Char)
    (rest : List (List Char × List Char × List Char)) (pool : Pool)
    (hmem : ¬ lookupA (TmplPath dir (file0 ++ extSuffix)) pool = none) :
    (ContainsSubTplAux fs dir ((matched, file0, pass0) :: rest) content pool).val =
      (ContainsSubTplAux fs dir rest
        (replaceAll matched (subTplRef (TmplPath dir (file0 ++ extSuffix)) pass0) content)
        pool).val := by
  rw [ContainsSubTplAux, dif_neg hmem]




theorem cstAux_nil (fs : FS) (dir content : List Char) (pool : Pool) :
    (ContainsSubTplAux fs dir [] content pool).val = ⟨content, pool, []⟩ := by
  rw [ContainsSubTplAux]

/-- Reads of the content source that succeeded (the path is present). -/
def okReads (fs : FS) (reads : List (List Char)) : List (List Char) :=
  reads.filter (fun p => decide (p ∈ keysOf fs))

theorem okReads_append (fs : FS) (l1 l2 : List (List Char)) :
    okReads fs (l1 ++ l2) = okReads fs l1 ++ okReads fs l2 := by
  simp [okReads]

/-- Invariant of include expansion: the successful reads of one call are
pairwise distinct paths, none of which was registered in the pool at entry,
and all of which are registered in the pool at exit. -/
theorem cst_reads_inv (fs : FS) (dir : List Char) :
    ∀ (ms : List (List Char × List Char × List Char)) (content : List Char)
      (pool : Pool),
    (okReads fs (ContainsSubTplAux fs dir ms content pool).val.reads).Nodup ∧
    (∀ p ∈ okReads fs (ContainsSubTplAux fs dir ms content pool).val.reads,
      p ∉ keysOf pool ∧ p ∈ keysOf (ContainsSubTplAux fs dir ms content pool).val.pool) := by
  intro ms content pool
  induction ms, content, pool using ContainsSubTplAux.induct fs dir with
  | case1 content pool =>
    rw [cstAux_nil]
    simp [okReads]
  | case2 matched file0 pass0 rest content pool filev hmem e hread =>
    rw [cstAux_err fs dir matched file0 pass0 content e rest pool hmem hread]
    have hnm : TmplPath dir (file0 ++ extSuffix) ∉ keysOf fs :=
      RawContent_error_not_mem hread
    simp [okReads, hnm]
  | case3 matched file0 pass0 rest content pool filev hmem b hread r1v pool2v ih1 ih1b ih1c ihc1 ihc2 ih2 =>
    rw [cstAux_ok fs dir matched file0 pass0 content b rest pool hmem hread]
    dsimp only []
    set file := TmplPath dir (file0 ++ extSuffix) with hfile
    set r1 := ContainsSubTplAux fs dir (findCalls "Include".data b) b (setK pool file [])
      with hr1
    set pool2 := setK r1.val.pool file r1.val.text with hpool2
    set r2 := ContainsSubTplAux fs dir rest
      (replaceAll matched (subTplRef file pass0) content) pool2 with hr2
    have hmemfs : file ∈ keysOf fs := RawContent_ok_mem hread
    have hnotpool : file ∉ keysOf pool := (lookupA_eq_none_iff pool file).1 hmem
    have hfile_pool1 : file ∈ keysOf (setK pool file []) :=
      (mem_keysOf_setK pool file [] file).2 (Or.inl rfl)
    have hpool_pool1 : ∀ p, p ∈ keysOf pool → p ∈ keysOf (setK pool file []) :=
      fun p hp => (mem_keysOf_setK pool file [] p).2 (Or.inr hp)
    have hr1le : ∀ p, p ∈ keysOf (setK pool file []) → p ∈ keysOf r1.val.pool :=
      r1.property
    have hr1_pool2 : ∀ p, p ∈ keysOf r1.val.pool → p ∈ keysOf pool2 :=
      fun p hp => (mem_keysOf_setK r1.val.pool file r1.val.text p).2 (Or.inr hp)
    have hfile_pool2 : file ∈ keysOf pool2 :=
      (mem_keysOf_setK r1.val.pool file r1.val.text file).2 (Or.inl rfl)
    have hr2le : ∀ p, p ∈ keysOf pool2 → p ∈ keysOf r2.val.pool := r2.property
    have hfile_in : file ∉ okReads fs r1.val.reads := by
      intro hmem2
      exact ((ih1.2 file hmem2).1) hfile_pool1
    have hfile_in2 : file ∉ okReads fs r2.val.reads := by
      intro hmem2
      exact ((ih2.2 file hmem2).1) hfile_pool2
    have hdisj : ∀ p, p ∈ okReads fs r1.val.reads → p ∉ okReads fs r2.val.reads := by
      intro p hp1 hp2
      exact (ih2.2 p hp2).1 (hr1_pool2 p (ih1.2 p hp1).2)
    constructor
    · rw [show okReads fs (file :: (r1.val.reads ++ r2.val.reads)) =
          file :: (okReads fs r1.val.reads ++ okReads fs r2.val.reads) by
        simp [okReads, hmemfs]]
      rw [List.nodup_cons, List.nodup_append]
      refine ⟨?_, ih1.1, ih2.1, hdisj⟩
      intro hmem2
      rcases List.mem_append.1 hmem2 with hh | hh
      · exact hfile_in hh
      · exact hfile_in2 hh
    · intro p hp
      rw [show okReads fs (file :: (r1.val.reads ++ r2.val.reads)) =
          file :: (okReads fs r1.val.reads ++ okReads fs r2.val.reads) by
        simp [okReads, hmemfs]] at hp
      rcases List.mem_cons.1 hp with hh | hh
      · subst hh
        exact ⟨hnotpool, hr2le _ hfile_pool2⟩
      · rcases List.mem_append.1 hh with hh2 | hh2
        · refine ⟨?_, hr2le _ (hr1_pool2 _ (ih1.2 p hh2).2)⟩
          intro hpp
          exact (ih1.2 p hh2).1 (hpool_pool1 p hpp)
        · refine ⟨?_, (ih2.2 p hh2).2⟩
          intro hpp
          exact (ih2.2 p hh2).1 (hr1_pool2 p (hr1le p (hpool_pool1 p hpp)))
  | case4 matched file0 pass0 rest content pool filev hmem ih ih2 =>
    rw [cstAux_present fs dir matched file0 pass0 content rest pool hmem]
    exact ih



/-- Body of a template that includes itself twice. -/
def selfIncBody : List Char :=
  "A".data ++ Tag ("Include \"s\"".data) ++ "B".data ++
    Tag ("Include \"s\"".data) ++ "C".data

/-- Content source holding only the self-including template. -/
def selfIncFS : FS := [("t/s.html".data, selfIncBody)]

/-- Reference construct for the self-include. -/
def selfIncRef : List Char := subTplRef "t/s.html".data []

unseal ContainsSubTplAux in
/-- C7: include expansion is a total function (its recursion is bounded by
the set of content-source paths not yet registered in the pool, with the
empty placeholder registered before recursing); within one top-level
expansion every distinct resolved path is read and expanded at most once
(the successful-read log has no duplicates, each read path was absent from
the pool at entry and is registered at exit); and a template that includes
itself terminates with every Include occurrence site replaced by exactly one
reference construct, the pool holding one fully expanded entry after exactly
one read. -/
theorem C7_include_expansion :
    (∀ (fs : FS) (dir content : List Char) (pool : Pool),
      (okReads fs (ContainsSubTpl fs dir content pool).reads).Nodup ∧
      ∀ p ∈ okReads fs (ContainsSubTpl fs dir content pool).reads,
        p ∉ keysOf pool ∧ p ∈ keysOf (ContainsSubTpl fs dir content pool).pool) ∧
    (ContainsSubTpl selfIncFS "t".data selfIncBody []).text =
      "A".data ++ selfIncRef ++ "B".data ++ selfIncRef ++ "C".data ∧
    (ContainsSubTpl selfIncFS "t".data selfIncBody []).reads = ["t/s.html".data] ∧
    lookupA "t/s.html".data (ContainsSubTpl selfIncFS "t".data selfIncBody []).pool =
      some ("A".data ++ selfIncRef ++ "B".data ++ selfIncRef ++ "C".data) := by
  refine ⟨?_, ?_, ?_, ?_⟩
  · intro fs dir content pool
    rw [ContainsSubTpl]
    exact cst_reads_inv fs dir _ content pool
  · decide
  · decide
  · decide

theorem C7_include_expansion_witness :
    (okReads selfIncFS
      (ContainsSubTpl selfIncFS "t".data selfIncBody []).reads).Nodup ∧
    (ContainsSubTpl selfIncFS "t".data selfIncBody []).reads = ["t/s.html".data] :=
  ⟨(C7_include_expansion.1 selfIncFS "t".data selfIncBody []).1,
    C7_include_expansion.2.2.1⟩

end StdRender

namespace StdRender


/-- Exhausted-or-terminal loop: with no Extend match the walk ends. -/
theorem extendLoop_any_none (fs : FS) (dir ck content : List Char)
    (subcs extcs : Pool) (cache : AMap CcRel) (n : Nat) :
    extendLoop fs dir ck n content none subcs extcs cache =
      ⟨.ok content, subcs, extcs, cache, []⟩ := by
  cases n <;> rfl

/-- First hop of the bounded walk at the initial budget. -/
theorem extendLoop_ten_step (fs : FS) (dir ck content extName passObj : List Char)
    (subcs extcs : Pool) (cache : AMap CcRel) :
    extendLoop fs dir ck 10 content (some (extName, passObj)) subcs extcs cache =
      (let pb := ParseBlock fs dir content subcs extcs
       let extFile := TmplPath dir (extName ++ extSuffix)
       match RawContent fs extFile with
       | .error e => ⟨.error e, pb.1, pb.2.1, cache, pb.2.2 ++ [extFile]⟩
       | .ok b =>
         let pe := ParseExtend fs dir b pb.2.1 passObj pb.1
         let cache1 := touchRel cache extFile ck
         let lr := extendLoop fs dir ck 9 pe.content pe.extTag pe.subcs pe.extcs cache1
         ⟨lr.res, lr.subcs, lr.extcs, lr.cache, pb.2.2 ++ [extFile] ++ pe.reads ++ lr.reads⟩) := rfl

/-- C1: for a chain child extends parent where the child defines block bn
with body X containing the Super marker and the parent (the terminal layout)
defines block bn inline with body Y, the resolved document's effective
content for bn - its named sub-definition on the compiled template - is X
with the first Super marker occurrence replaced by Y, and the flattened
document is the parent layout with the block occurrence replaced by a
reference to bn. -/
theorem C1_override_super (fs : FS) (ev : Ev) (ctx : Ctx) (eng : Engine)
    (nm childKey parentName parentKey C P X Y bn mC mP : List Char)
    (hck : childKey = TmplPath eng.templateDir (nm ++ extSuffix))
    (hpk : parentKey = TmplPath eng.templateDir (parentName ++ extSuffix))
    (hmiss : lookupA childKey eng.cachedRelation = none)
    (hrawC : RawContent fs childKey = .ok C)
    (hextC : matchExtendTag C = some (parentName, []))
    (hselfC : findSelf C = [])
    (hblkC : findBlocks C = [(mC, bn, X)])
    (hincX : findCalls "Include".data X = [])
    (hrawP : RawContent fs parentKey = .ok P)
    (hextP : matchExtendTag P = none)
    (hselfP : findSelf P = [])
    (hblkP : findBlocks P = [(mP, bn, Y)])
    (hsuper : containsLit superMarker X = true)
    (hincY : findCalls "Include".data Y = [])
    (hincF : findCalls "Include".data
      (replaceFirst mP (blockRef bn ['.']) P) = [])
    (hfunF : findCalls "Function".data
      (replaceFirst mP (blockRef bn ['.']) P) = [])
    (hfunV : findCalls "Function".data (replaceFirst superMarker Y X) = [])
    (hev : ∀ s, ev s = none)
    (hbn : bn ≠ childKey) :
    (parse fs ev ctx eng nm).err = none ∧
    lookupA bn (parse fs ev ctx eng nm).tmpl.subs =
      some (replaceFirst superMarker Y X) ∧
    (parse fs ev ctx eng nm).tmpl.text = replaceFirst mP (blockRef bn ['.']) P := by
  subst hck
  subst hpk
  simp only [parse, hmiss, parseCompile, hrawC, hextC,
    replaceSelf_noop _ _ hselfC, extendLoop_ten_step, ParseBlock, hblkC,
    ParseBlockAux, ContainsSubTpl_noop _ _ _ _ hincX, hrawP, ParseExtend,
    hextP, replaceSelf_noop _ _ hselfP, hblkP, ParseExtendAux, lookupA,
    eq_self_iff_true, if_true, if_pos, hsuper,
    ContainsSubTpl_noop _ _ _ _ hincY, List.isEmpty_nil,
    Option.isSome_none, Bool.false_eq_true, if_false, extendLoop_any_none,
    pruneByRec, List.filter, Option.isSome_some, setK,
    ContainsSubTpl_noop _ _ _ _ hincF, ContainsFunctionResult_noop _ _ _ _ hfunF,
    hev, subcsFold, extcsFold, CleanTemplateName, if_neg hbn,
    ContainsFunctionResult_noop _ _ _ _ hfunV, insertSet, List.not_mem_nil,
    List.append_nil, List.nil_append, setFunc]
  refine ⟨trivial, ?_, trivial⟩
  simp [lookupA]



/-- Child document of the override example: extends L and defines block b
with body X1 Super X2. -/
def c1Child : List Char :=
  Tag ("Extend \"L\"".data) ++ Tag ("Block \"b\"".data) ++ "X1".data ++
    superMarker ++ "X2".data ++ Tag "/Block".data

/-- Parent layout of the override example: defines block b inline with Y. -/
def c1Lay : List Char :=
  "<div>".data ++ Tag ("Block \"b\"".data) ++ "Y".data ++ Tag "/Block".data ++
    "</div>".data

/-- Content source of the override example. -/
def c1FS : FS := [("t/L.html".data, c1Lay), ("t/C.html".data, c1Child)]

theorem C1_override_super_witness :
    (parse c1FS evAccept ctxEmpty engT "C".data).err = none ∧
    lookupA "b".data (parse c1FS evAccept ctxEmpty engT "C".data).tmpl.subs =
      some (replaceFirst superMarker "Y".data
        ("X1".data ++ superMarker ++ "X2".data)) := by
  have h := C1_override_super c1FS evAccept ctxEmpty engT "C".data
    "t/C.html".data "L".data "t/L.html".data c1Child c1Lay
    ("X1".data ++ superMarker ++ "X2".data) "Y".data "b".data
    (Tag ("Block \"b\"".data) ++ "X1".data ++ superMarker ++ "X2".data ++
      Tag "/Block".data)
    (Tag ("Block \"b\"".data) ++ "Y".data ++ Tag "/Block".data)
    rfl rfl rfl rfl (by decide) (by decide) (by decide) (by decide)
    rfl (by decide) (by decide) (by decide) (by decide) (by decide)
    (by decide) (by decide) (by decide) (fun _ => rfl) (by decide)
  exact ⟨h.1, h.2.1⟩

end StdRender

namespace StdRender


/-- C3: a block defined in the child but never referenced in the ancestor
layout is pruned at the end of chain resolution: it has no named
sub-definition on the compiled template and the flattened document is the
parent layout with only the referenced block spliced (the orphan body occurs
nowhere in the result expression). -/
theorem C3_orphan_pruning (fs : FS) (ev : Ev) (ctx : Ctx) (eng : Engine)
    (nm childKey parentName parentKey C P X Z Y bn onm mB mO mP : List Char)
    (hck : childKey = TmplPath eng.templateDir (nm ++ extSuffix))
    (hpk : parentKey = TmplPath eng.templateDir (parentName ++ extSuffix))
    (hmiss : lookupA childKey eng.cachedRelation = none)
    (hrawC : RawContent fs childKey = .ok C)
    (hextC : matchExtendTag C = some (parentName, []))
    (hselfC : findSelf C = [])
    (hblkC : findBlocks C = [(mB, bn, X), (mO, onm, Z)])
    (hincX : findCalls "Include".data X = [])
    (hincZ : findCalls "Include".data Z = [])
    (hrawP : RawContent fs parentKey = .ok P)
    (hextP : matchExtendTag P = none)
    (hselfP : findSelf P = [])
    (hblkP : findBlocks P = [(mP, bn, Y)])
    (hnosuper : containsLit superMarker X = false)
    (honb : bn ≠ onm)
    (hincF : findCalls "Include".data
      (replaceFirst mP (blockRef bn ['.']) P) = [])
    (hfunF : findCalls "Function".data
      (replaceFirst mP (blockRef bn ['.']) P) = [])
    (hfunX : findCalls "Function".data X = [])
    (hev : ∀ s, ev s = none)
    (hbn : bn ≠ childKey) :
    (parse fs ev ctx eng nm).err = none ∧
    lookupA onm (parse fs ev ctx eng nm).tmpl.subs = none ∧
    lookupA bn (parse fs ev ctx eng nm).tmpl.subs = some X ∧
    (parse fs ev ctx eng nm).tmpl.text = replaceFirst mP (blockRef bn ['.']) P := by
  subst hck
  subst hpk
  simp only [parse, hmiss, parseCompile, hrawC, hextC,
    replaceSelf_noop _ _ hselfC, extendLoop_ten_step, ParseBlock, hblkC,
    ParseBlockAux, ContainsSubTpl_noop _ _ _ _ hincX,
    ContainsSubTpl_noop _ _ _ _ hincZ, hrawP, ParseExtend,
    hextP, replaceSelf_noop _ _ hselfP, hblkP, ParseExtendAux, lookupA, setK,
    eq_self_iff_true, if_true, honb, if_false, hnosuper, List.isEmpty_nil,
    Option.isSome_none, Bool.false_eq_true, extendLoop_any_none,
    pruneByRec, List.filter, Option.isSome_some,
    ContainsSubTpl_noop _ _ _ _ hincF, ContainsFunctionResult_noop _ _ _ _ hfunF,
    hev, subcsFold, extcsFold, CleanTemplateName, if_neg hbn,
    ContainsFunctionResult_noop _ _ _ _ hfunX, insertSet, List.not_mem_nil,
    List.append_nil, List.nil_append, setFunc]
  refine ⟨trivial, ?_, ?_, trivial⟩
  · simp [lookupA, Ne.symm honb]
  · simp [lookupA]



/-- Child document of the pruning example: defines the referenced block b
and the orphan block o. -/
def c3Child : List Char :=
  Tag ("Extend \"L4\"".data) ++ Tag ("Block \"b\"".data) ++ "KEEP".data ++
    Tag "/Block".data ++ Tag ("Block \"o\"".data) ++ "DEAD".data ++
    Tag "/Block".data

/-- Parent layout of the pruning example: references only block b. -/
def c3Lay : List Char :=
  "[".data ++ Tag ("Block \"b\"".data) ++ "Y".data ++ Tag "/Block".data ++
    "]".data

/-- Content source of the pruning example. -/
def c3FS : FS := [("t/L4.html".data, c3Lay), ("t/C4.html".data, c3Child)]

theorem C3_orphan_pruning_witness :
    lookupA "o".data (parse c3FS evAccept ctxEmpty engT "C4".data).tmpl.subs =
      none ∧
    lookupA "b".data (parse c3FS evAccept ctxEmpty engT "C4".data).tmpl.subs =
      some "KEEP".data := by
  have h := C3_orphan_pruning c3FS evAccept ctxEmpty engT "C4".data
    "t/C4.html".data "L4".data "t/L4.html".data c3Child c3Lay
    "KEEP".data "DEAD".data "Y".data "b".data "o".data
    (Tag ("Block \"b\"".data) ++ "KEEP".data ++ Tag "/Block".data)
    (Tag ("Block \"o\"".data) ++ "DEAD".data ++ Tag "/Block".data)
    (Tag ("Block \"b\"".data) ++ "Y".data ++ Tag "/Block".data)
    rfl rfl rfl rfl (by decide) (by decide) (by decide) (by decide)
    (by decide) rfl (by decide) (by decide) (by decide) (by decide)
    (by decide) (by decide) (by decide) (by decide) (fun _ => rfl) (by decide)
  exact ⟨h.2.1, h.2.2.1⟩

end StdRender
